import Mathlib

/-!
Shallow embedding of the reverse-mode autodiff execution engine
(`torch/csrc/autograd/engine.cpp`).  Nodes are identified by natural
numbers; a `Graph` packages the per-node structure (`next_edges`,
`num_inputs`, `input_metadata`, the backward operator `applyFn`).
Tensors are modelled as optional records carrying shape, dtype, device
and a scalar payload; the engine never looks inside tensor arithmetic,
so the payload is enough to track gradient routing and captures.
Stateful code (`GraphTask`, the worker loop `thread_main`) is modelled
by explicit state passing; fallible code returns `Except`.
-/

namespace Autograd

/-- Constant from engine.h: a caller thread that has not entered the engine. -/
def NO_DEVICE : Int := -2

/-- Constant from engine.h: the CPU worker device. -/
def CPU_DEVICE : Int := -1

/-- Scalar types the engine distinguishes (floating family plus others). -/
inductive ScalarType
  | float
  | double
  | half
  | int64
  | uint8
deriving DecidableEq, Repr

/-- Modelled from the spec: ATen's `isFloatingType` predicate used by
`validate_outputs` (ATen is not under src/). -/
def isFloatingType : ScalarType → Bool
  | .float => true
  | .double => true
  | .half => true
  | _ => false

/-- Device types the engine distinguishes (colocated per index). -/
inductive DeviceType
  | cpu
  | cuda
deriving DecidableEq, Repr

/-- A device: type plus index, as in `at::Device`. -/
structure Device where
  devType : DeviceType
  index : Nat
deriving DecidableEq, Repr

/-- Modelled from the spec: the slice of `at::TensorOptions` the engine
consults (dtype, device type and layout; ATen is not under src/). -/
structure TensorOptions where
  dtype : ScalarType
  devType : DeviceType
  isSparse : Bool
deriving DecidableEq, Repr

/-- Modelled from the spec: `TensorOptions::type_equal` compares the
dispatch key (device type and layout) and the dtype (ATen is not under
src/). -/
def TensorOptions.type_equal (a b : TensorOptions) : Bool :=
  a.dtype == b.dtype && a.devType == b.devType && a.isSparse == b.isSparse

/-- A defined tensor: sizes, dtype, device, layout and a scalar payload
standing in for the data. -/
structure TensorData where
  sizes : List Nat
  dtype : ScalarType
  devType : DeviceType
  deviceIndex : Nat
  isSparse : Bool
  value : Int
deriving DecidableEq, Repr

/-- A variable in the engine: `none` is the undefined-tensor sentinel. -/
abbrev Tensor := Option TensorData

def TensorData.options (t : TensorData) : TensorOptions :=
  ⟨t.dtype, t.devType, t.isSparse⟩

def TensorData.device (t : TensorData) : Device :=
  ⟨t.devType, t.deviceIndex⟩

/-- Per-input metadata a `Node` exposes (shape, options, device). -/
structure InputMetadata where
  shape : List Nat
  options : TensorOptions
  device : Device
deriving DecidableEq, Repr

/-- An edge `(function, input_nr)`; valid iff `function` is present. -/
structure Edge where
  function : Option Nat
  input_nr : Nat
deriving DecidableEq, Repr

def Edge.is_valid (e : Edge) : Bool := e.function.isSome

/-- The graph the engine traverses: node ids below `numNodes`, with the
engine-facing node contract (`next_edges`, `num_inputs`,
`input_metadata`, and the backward operator, which may throw). -/
structure Graph where
  numNodes : Nat
  next_edges : Nat → List Edge
  num_inputs : Nat → Nat
  input_metadata : Nat → Nat → InputMetadata
  applyFn : Nat → List Tensor → Except String (List Tensor)

/-- Modelled from the spec: ATen's `is_expandable_to(shape, desired)`
(trailing dimensions must match or be 1; ATen is not under src/). -/
def is_expandable_to (shape desired : List Nat) : Bool :=
  shape.length ≤ desired.length &&
    ((shape.reverse.zip desired.reverse).all fun p => p.1 == p.2 || p.1 == 1)

/-- Modelled from the spec: ATen's `at::sum_to` reduces a broadcast
gradient down to `shape`; only the sizes change in this model (ATen is
not under src/). -/
def sum_to (t : TensorData) (shape : List Nat) : TensorData :=
  { t with sizes := shape }

/-- Modelled from the spec: `Tensor::to(dtype)` casts, keeping sizes and
device (ATen is not under src/). -/
def castTo (t : TensorData) (st : ScalarType) : TensorData :=
  { t with dtype := st }

/-- Source `is_compatible_type` from engine.cpp: exact options match, or the
gradient is a sparse tensor on the same device type. -/
def is_compatible_type (expected actual : TensorOptions) : Bool :=
  expected.type_equal actual ||
    (actual.isSparse && expected.devType == actual.devType)

/-- Whether an `Except` result is an error. -/
def isErr : Except String α → Bool
  | .error _ => true
  | .ok _ => false

/-- The compatibility and device checks at the end of the per-gradient
loop of `validate_outputs` (the compatibility error fires first),
applied to the (possibly cast) gradient. -/
def validateCompat (metadata : InputMetadata) (t2 : TensorData) : Except String Tensor :=
  if is_compatible_type metadata.options t2.options then
    if t2.device = metadata.device then .ok (some t2)
    else .error "invalid gradient: expected device mismatch"
  else .error "invalid gradient: expected type mismatch"

/-- The dtype tail of the per-gradient checks in `validate_outputs`
(after the shape step has produced `t1`): require a floating dtype,
cast to the expected dtype when they differ, then check compatibility
and device. -/
def validateTyped (metadata : InputMetadata) (t1 : TensorData) : Except String Tensor :=
  if isFloatingType t1.dtype then
    validateCompat metadata
      (if metadata.options.dtype = t1.dtype then t1 else castTo t1 metadata.options.dtype)
  else .error "isFloatingType check failed"

/-- One iteration of the `validate_outputs` loop: skip invalid edges,
skip undefined gradients, then shape/dtype/device checks against the
edge's input metadata. -/
def validateItem (g : Graph) (edge : Edge) (grad : Tensor) : Except String Tensor :=
  match edge.function with
  | none => .ok grad
  | some fnId =>
    match grad with
    | none => .ok none
    | some t0 =>
      let metadata := g.input_metadata fnId edge.input_nr
      if t0.sizes = metadata.shape then validateTyped metadata t0
      else if is_expandable_to metadata.shape t0.sizes then
        validateTyped metadata (sum_to t0 metadata.shape)
      else .error "invalid gradient: shape incompatible with expected shape"

/-- The index loop of `validate_outputs`, updating gradients in order and
propagating the first error. -/
def validateList (g : Graph) : List Edge → List Tensor → Except String (List Tensor)
  | e :: es, t :: ts =>
    match validateItem g e t with
    | .error m => .error m
    | .ok t' =>
      match validateList g es ts with
      | .error m => .error m
      | .ok ts' => .ok (t' :: ts')
  | _, _ => .ok []

/-- Source `validate_outputs` from engine.cpp: gradient count must match the
edge count, then each defined gradient is checked and normalized. -/
def validate_outputs (g : Graph) (edges : List Edge) (grads : List Tensor) :
    Except String (List Tensor) :=
  if grads.length ≠ edges.length then .error "invalid number of gradients"
  else validateList g edges grads

/-! Association-list maps keyed by node id, standing in for the
`std::unordered_map`s of `GraphTask` (`dependencies_`, `not_ready_`,
`exec_info_`). -/

/-- Look up a key in an association list. -/
def lookupA (k : Nat) : List (Nat × α) → Option α
  | [] => none
  | (k', v) :: rest => if k' = k then some v else lookupA k rest

/-- Remove the entry for a key from an association list. -/
def eraseA (k : Nat) : List (Nat × α) → List (Nat × α)
  | [] => []
  | (k', v) :: rest => if k' = k then rest else (k', v) :: eraseA k rest

/-- Set the value for a key in an association list (insert at the end on
first use, as `operator[]` does for a fresh key). -/
def setA (k : Nat) (v : α) : List (Nat × α) → List (Nat × α)
  | [] => [(k, v)]
  | (k', v') :: rest => if k' = k then (k', v) :: rest else (k', v') :: setA k v rest

/-- One `(input_idx, output_idx)` capture of `GraphTask::ExecInfo`. -/
structure Capture where
  input_idx : Nat
  output_idx : Nat
deriving DecidableEq, Repr

/-- Source `GraphTask::ExecInfo`: the needed flag and the capture list (the
null `unique_ptr` of the source is the empty list here). -/
structure ExecInfo where
  needed : Bool := false
  captures : List Capture := []
deriving DecidableEq, Repr

/-- Modelled from the spec: `ExecInfo::should_execute` (declared in
engine.h, not under src/) is `needed || captures non-empty`. -/
def ExecInfo.should_execute (e : ExecInfo) : Bool :=
  e.needed || !e.captures.isEmpty

/-- An input buffer: one optional-tensor slot per node input. -/
abbrev InputBuffer := List Tensor

/-- Modelled from the spec: `InputBuffer::add` (input_buffer.cpp is not
under src/): place the value if the slot is empty, otherwise accumulate
the sum into the slot. -/
def InputBuffer.add (buf : InputBuffer) (pos : Nat) (v : Tensor) : InputBuffer :=
  match buf.getD pos none with
  | none => buf.set pos v
  | some old =>
    match v with
    | none => buf
    | some nv => buf.set pos (some { old with value := old.value + nv.value })

/-- Source `InputBuffer::variables`: drain the buffer into a variable list
(empty slots are already the undefined sentinel). -/
def InputBuffer.variables (b : InputBuffer) : List Tensor := b

/-- The completion channel `future_result_` of a `GraphTask`. -/
inductive FutureResult
  | pending
  | completed (vals : List Tensor)
  | errored (msg : String)
deriving DecidableEq, Repr

/-- Source `Future::completed()`: true once a value or an error has been set. -/
def FutureResult.completedFlag : FutureResult → Bool
  | .pending => false
  | _ => true

/-- Source `Future::wait()`: the value, or the stored error rethrown. -/
def FutureResult.wait : FutureResult → Except String (List Tensor)
  | .pending => .error "future not completed"
  | .completed v => .ok v
  | .errored m => .error m

/-- Per-invocation state of one backward call (`struct GraphTask`).
Dependency counts are `Int`, as in the source (`unordered_map<Node*, int>`). -/
structure GraphTask where
  outstanding_tasks : Int
  dependencies : List (Nat × Int)
  not_ready : List (Nat × InputBuffer)
  exec_info : List (Nat × ExecInfo)
  captured_vars : List Tensor
  keep_graph : Bool
  create_graph : Bool
  exit_on_error : Bool
  has_error : Bool
  future_result : FutureResult
  reentrant_depth : Nat
  owner : Int
deriving DecidableEq, Repr

/-- Source `graph_task_completed`: the counter reached zero, or the error latch
fired under the exit-on-error policy. -/
def graph_task_completed (gt : GraphTask) : Bool :=
  gt.outstanding_tasks == 0 || (gt.exit_on_error && gt.has_error)

/-- Source `GraphTask::set_exception`: first writer wins — if the latch is
already set nothing happens; otherwise latch `has_error` and complete
the future with the message unless it already completed. -/
def GraphTask.set_exception (gt : GraphTask) (msg : String) : GraphTask :=
  if gt.has_error then gt
  else
    let gt' : GraphTask := { gt with has_error := true }
    if gt'.future_result.completedFlag then gt'
    else { gt' with future_result := .errored msg }

/-- A work item (`struct NodeTask`).  The weak `GraphTask` pointer is
modelled as an optional snapshot of the task's reentrant depth: `none`
means the weak reference has expired. -/
structure NodeTask where
  base : Option Nat
  fn : Option Nat
  inputs : InputBuffer
  isShutdown : Bool := false
deriving DecidableEq, Repr

/-- Largest value of a C++ `int` (`std::numeric_limits<int>::max()`). -/
def intMax : Int := 2147483647

/-- Source `NodeTask::getReentrantDepth`: the GraphTask's reentrant depth while
the weak reference is alive, `intMax` once it has expired. -/
def NodeTask.getReentrantDepth (t : NodeTask) : Int :=
  match t.base with
  | some d => (d : Int)
  | none => intMax

/-- Modelled from the spec: the ReadyQueue comparator (declared in
engine.h, not under src/) keys on `(is_shutdown desc, reentrant_depth
desc)`; `a` beats `b` when `a` is a shutdown task and `b` is not, or
both agree on shutdown and `a` carries the larger reentrant depth. -/
def NodeTask.higherPriority (a b : NodeTask) : Bool :=
  (a.isShutdown && !b.isShutdown) ||
    (a.isShutdown == b.isShutdown && b.getReentrantDepth < a.getReentrantDepth)

/-- The sentinel pushed by `ReadyQueue::pushShutdownTask`:
`NodeTask({}, nullptr, InputBuffer(0), true)`. -/
def shutdownTask : NodeTask :=
  { base := none, fn := none, inputs := [], isShutdown := true }

/-- Source `Engine::~Engine`: push a shutdown task onto every device ready
queue, but only when every device ready queue is empty; otherwise the
worker threads are leaked. -/
def Engine.dtor (device_ready_queues : List (List NodeTask)) : List (List NodeTask) :=
  let noBackward := device_ready_queues.foldl (fun acc q => acc && q.isEmpty) true
  if noBackward then device_ready_queues.map (fun q => q ++ [shutdownTask])
  else device_ready_queues

/-- Source `Engine::graph_task_exec_post_processing`: a non-empty `not_ready_`
map at completion means some buffered node never ran; otherwise the
captured variables are returned.  (Post callbacks and leaf-stream
synchronization act on external state and are not modelled.) -/
def graph_task_exec_post_processing (gt : GraphTask) : Except String (List Tensor) :=
  if ¬ gt.not_ready.isEmpty then
    .error "could not compute gradients for some functions"
  else .ok gt.captured_vars

/-- Source `Engine::mark_graph_task_completed`: a no-op when the future already
completed; otherwise complete it with the post-processing value or turn
the thrown exception into an error on the future. -/
def mark_graph_task_completed (gt : GraphTask) : GraphTask :=
  if gt.future_result.completedFlag then gt
  else
    match graph_task_exec_post_processing gt with
    | .ok v => { gt with future_result := .completed v }
    | .error e => { gt with future_result := .errored e }

/-- Source `call_function`: drain the buffer, invoke the operator, validate its
outputs against the node's next edges.  (Pre/post hooks and
`checkpoint_valid` bookkeeping act on external state and are identity
here; anomaly mode is modelled disabled.) -/
def call_function (g : Graph) (func : Nat) (inputs : InputBuffer) :
    Except String (List Tensor) :=
  match g.applyFn func (InputBuffer.variables inputs) with
  | .error e => .error e
  | .ok outputs => validate_outputs g (g.next_edges func) outputs

/-- The capture-copy loop of `evaluate_function`: for each capture,
`captured_vars_[output_idx] := inputs[input_idx]`. -/
def captureInputs (inputs : InputBuffer) (caps : List Capture) (vars : List Tensor) :
    List Tensor :=
  caps.foldl (fun acc c => acc.set c.output_idx (inputs.getD c.input_idx none)) vars

/-- Result of one `evaluate_function` call: the updated task state, the
node tasks pushed to the (CPU) ready queue, whether `call_function` was
entered, and the exception text if one was thrown. -/
structure EvalResult where
  gt : GraphTask
  pushes : List NodeTask
  invoked : Bool
  err : Option String
deriving DecidableEq, Repr

/-- One iteration of the output-dispatch loop of `evaluate_function`:
skip invalid edges, decrement the successor's dependency count (erasing
the entry and marking it ready at zero), skip successors masked out by
`exec_info_`, accumulate into the successor's input buffer, and push a
node task when ready.  A missing dependency entry is the fail-fast
invariant violation. -/
def processOutput (g : Graph) (gt : GraphTask) (fnId : Nat) (i : Nat) (output : Tensor) :
    Except String (GraphTask × Option NodeTask) :=
  let next := (g.next_edges fnId).getD i ⟨none, 0⟩
  match next.function with
  | none => .ok (gt, none)
  | some nextFn =>
    match lookupA nextFn gt.dependencies with
    | none => .error "dependency not found"
    | some cnt =>
      let is_ready := cnt - 1 == 0
      let deps' := if cnt - 1 = 0 then eraseA nextFn gt.dependencies
                   else setA nextFn (cnt - 1) gt.dependencies
      let gt1 : GraphTask := { gt with dependencies := deps' }
      match lookupA nextFn gt1.not_ready with
      | none =>
        if !gt1.exec_info.isEmpty &&
            !(((lookupA nextFn gt1.exec_info).map ExecInfo.should_execute).getD false) then
          .ok (gt1, none)
        else
          let input_buffer :=
            InputBuffer.add (List.replicate (g.num_inputs nextFn) none) next.input_nr output
          if is_ready then
            .ok (gt1, some { base := some gt1.reentrant_depth, fn := some nextFn,
                             inputs := input_buffer })
          else
            .ok ({ gt1 with not_ready := gt1.not_ready ++ [(nextFn, input_buffer)] }, none)
      | some buf =>
        let input_buffer := InputBuffer.add buf next.input_nr output
        if is_ready then
          .ok ({ gt1 with not_ready := eraseA nextFn gt1.not_ready },
               some { base := some gt1.reentrant_depth, fn := some nextFn,
                      inputs := input_buffer })
        else
          .ok ({ gt1 with not_ready := setA nextFn input_buffer gt1.not_ready }, none)

/-- The output-dispatch loop over all outputs of an executed node; a
thrown exception keeps the mutations and pushes made so far. -/
def dispatchLoop (g : Graph) (func : Nat) :
    Nat → List Tensor → GraphTask → List NodeTask → EvalResult
  | _, [], gt, pushes => { gt := gt, pushes := pushes, invoked := true, err := none }
  | i, out :: rest, gt, pushes =>
    match processOutput g gt func i out with
    | .error e => { gt := gt, pushes := pushes, invoked := true, err := some e }
    | .ok (gt', opt) => dispatchLoop g func (i + 1) rest gt' (pushes ++ opt.toList)

/-- The body of `evaluate_function` past the exec-info gate: run
`call_function`, return directly for zero-output (leaf) nodes, dispatch
outputs otherwise. -/
def evaluate_main (g : Graph) (gt : GraphTask) (func : Nat) (inputs : InputBuffer) :
    EvalResult :=
  match call_function g func inputs with
  | .error e => { gt := gt, pushes := [], invoked := true, err := some e }
  | .ok outputs =>
    if outputs.isEmpty then { gt := gt, pushes := [], invoked := true, err := none }
    else dispatchLoop g func 0 outputs gt []

/-- Source `Engine::evaluate_function`: when `exec_info_` is populated, copy
the captured inputs into `captured_vars_` and return without executing
a node whose `needed_` flag is false; otherwise run the node and
dispatch its outputs. -/
def evaluate_function (g : Graph) (gt0 : GraphTask) (func : Nat) (inputs : InputBuffer) :
    EvalResult :=
  if gt0.exec_info.isEmpty then evaluate_main g gt0 func inputs
  else
    match lookupA func gt0.exec_info with
    | none => { gt := gt0, pushes := [], invoked := false, err := some "exec_info entry missing" }
    | some fi =>
      let gt1 : GraphTask :=
        { gt0 with captured_vars := captureInputs inputs fi.captures gt0.captured_vars }
      if fi.needed then evaluate_main g gt1 func inputs
      else { gt := gt1, pushes := [], invoked := false, err := none }

/-- The per-thread view of one sequential backward run: the graph task,
the local ready queue, plus logs of which nodes were invoked
(`call_function` entered) and enqueued (pushed as node tasks). -/
structure LocalState where
  gt : GraphTask
  queue : List NodeTask
  invokedLog : List Nat
  enqueuedLog : List Nat
deriving DecidableEq, Repr

/-- Source `ReadyQueue::push` with `incrementOutstandingTasks = true`: enqueue
the task and bump the graph task's outstanding counter. -/
def pushTask (s : LocalState) (t : NodeTask) : LocalState :=
  { s with queue := s.queue ++ [t],
           gt := { s.gt with outstanding_tasks := s.gt.outstanding_tasks + 1 },
           enqueuedLog := s.enqueuedLog ++ (match t.fn with | some f => [f] | none => []) }

/-- The guarded `fn` invocation of the worker loop: a task with no `fn`
or a graph task with the error latch set skips `evaluate_function`; a
thrown exception is routed to `set_exception`. -/
def runTask (g : Graph) (s : LocalState) (task : NodeTask) : LocalState :=
  match task.fn with
  | none => s
  | some f =>
    if s.gt.has_error then s
    else
      let r := evaluate_function g s.gt f task.inputs
      let s1 : LocalState :=
        { s with gt := r.gt,
                 invokedLog := s.invokedLog ++ (if r.invoked then [f] else []) }
      let s2 := r.pushes.foldl pushTask s1
      match r.err with
      | some e => { s2 with gt := GraphTask.set_exception s2.gt e }
      | none => s2

/-- Source `Engine::thread_main`, sequentialized for a single (CPU) worker
driving one graph task: pop, stop on a shutdown task, skip a task whose
graph task expired, run the guarded invocation, decrement the
outstanding counter, and on completion mark the graph task completed
and break out (the CPU driver case).  Fuel bounds the loop. -/
def thread_main (g : Graph) : Nat → LocalState → LocalState
  | 0, s => s
  | fuel + 1, s =>
    match s.queue with
    | [] => s
    | task :: rest =>
      if task.isShutdown then s
      else if task.base.isNone then thread_main g fuel { s with queue := rest }
      else
        let s1 := runTask g { s with queue := rest } task
        let s2 : LocalState :=
          { s1 with gt := { s1.gt with outstanding_tasks := s1.gt.outstanding_tasks - 1 } }
        if graph_task_completed s2.gt then
          { s2 with gt := mark_graph_task_completed s2.gt }
        else
          thread_main g fuel s2

/-- One popped node of the `compute_dependencies` worklist: bump the
count of every non-null successor and push it on first visit.  Returns
the updated dependencies, seen set and the newly pushed nodes. -/
def countEdges (edges : List Edge) (acc : List (Nat × Int) × List Nat × List Nat) :
    List (Nat × Int) × List Nat × List Nat :=
  edges.foldl
    (fun acc edge =>
      match edge.function with
      | none => acc
      | some nextPtr =>
        let deps := setA nextPtr ((lookupA nextPtr acc.1).getD 0 + 1) acc.1
        if nextPtr ∈ acc.2.1 then (deps, acc.2.1, acc.2.2)
        else (deps, nextPtr :: acc.2.1, acc.2.2 ++ [nextPtr]))
    acc

/-- The iterative DFS of `Engine::compute_dependencies` (LIFO worklist,
head of the list is the top of the stack). -/
def compute_dependencies_loop (g : Graph) :
    Nat → List Nat → List Nat → List (Nat × Int) → List (Nat × Int)
  | 0, _, _, deps => deps
  | _ + 1, [], _, deps => deps
  | fuel + 1, fn :: queue, seen, deps =>
    let step := countEdges (g.next_edges fn) (deps, seen, [])
    compute_dependencies_loop g fuel (step.2.2.reverse ++ queue) step.2.1 step.1

/-- Source `Engine::compute_dependencies`: in-degree of every node reachable
from the graph root.  Each node is pushed at most once, so
`numNodes + 1` pops suffice as fuel. -/
def compute_dependencies (g : Graph) (root : Nat) : List (Nat × Int) :=
  compute_dependencies_loop g (g.numNodes + 1) [root] [] []

/-- Read an exec-info entry, default-constructing it as `operator[]`
does for a fresh key. -/
def getEI (m : List (Nat × ExecInfo)) (k : Nat) : ExecInfo :=
  (lookupA k m).getD { needed := false, captures := [] }

/-- Source `exec_info_[k].needed_ = b`, preserving any captures already there. -/
def setNeeded (m : List (Nat × ExecInfo)) (k : Nat) (b : Bool) : List (Nat × ExecInfo) :=
  setA k { getEI m k with needed := b } m

/-- Append a capture to `exec_info_[k].captures_`. -/
def addCapture (m : List (Nat × ExecInfo)) (k : Nat) (c : Capture) : List (Nat × ExecInfo) :=
  setA k (let e := getEI m k; { e with captures := e.captures ++ [c] }) m

/-- The capture-registration loop of `init_to_execute`: one capture per
requested output edge, with `output_idx` counting every edge.  (A null
output edge would key the map by null in the source; requested outputs
are valid edges, so such an edge only consumes an index here.) -/
def initCaptures : List Edge → Nat → List (Nat × ExecInfo) → List (Nat × ExecInfo) × Nat
  | [], idx, m => (m, idx)
  | e :: rest, idx, m =>
    match e.function with
    | some f => initCaptures rest (idx + 1) (addCapture m f ⟨e.input_nr, idx⟩)
    | none => initCaptures rest (idx + 1) m

/-- A suspended DFS position of `init_to_execute`: the node and the
index of the next successor edge to examine. -/
structure Frame where
  fn : Nat
  next_next_fn : Nat
deriving DecidableEq, Repr

/-- Source `Frame::get_next_fn` restricted to the remaining edges: the first
edge with a non-null function, together with the advanced index. -/
def find_next_fn : List Edge → Nat → Option (Nat × Nat)
  | [], _ => none
  | e :: rest, k =>
    match e.function with
    | some f => some (f, k + 1)
    | none => find_next_fn rest (k + 1)

/-- Source `Frame::get_next_fn`. -/
def get_next_fn (g : Graph) (fn k : Nat) : Option (Nat × Nat) :=
  find_next_fn ((g.next_edges fn).drop k) k

/-- The post-order value of `init_to_execute`: a node is needed iff some
successor's exec-info entry exists and should execute. -/
def neededOf (g : Graph) (ei : List (Nat × ExecInfo)) (fn : Nat) : Bool :=
  (g.next_edges fn).any fun edge =>
    match edge.function with
    | none => false
    | some f =>
      match lookupA f ei with
      | some info => info.should_execute
      | none => false

/-- The explicit-stack DFS of `init_to_execute`: descend into unseen
successors, and when a frame's edges are exhausted set its node's
`needed_` flag from its successors and pop. -/
def dfs_loop (g : Graph) :
    Nat → List Frame → List Nat → List (Nat × ExecInfo) → List (Nat × ExecInfo) × List Nat
  | 0, _, seen, ei => (ei, seen)
  | _ + 1, [], seen, ei => (ei, seen)
  | fuel + 1, frame :: rest, seen, ei =>
    match get_next_fn g frame.fn frame.next_next_fn with
    | some (next_fn, k') =>
      let stack' := { frame with next_next_fn := k' } :: rest
      if next_fn ∈ seen then dfs_loop g fuel stack' seen ei
      else dfs_loop g fuel (⟨next_fn, 0⟩ :: stack') (next_fn :: seen) ei
    | none =>
      dfs_loop g fuel rest seen (setNeeded ei frame.fn (neededOf g ei frame.fn))

/-- Largest out-degree among the in-range nodes. -/
def maxDeg (g : Graph) : Nat :=
  (List.range g.numNodes).foldl (fun a n => max a (g.next_edges n).length) 0

/-- Fuel that dominates the DFS of `init_to_execute`: at most
`numNodes + 1` frames, each stepped once per edge plus twice. -/
def dfsFuel (g : Graph) : Nat :=
  (g.numNodes + 2) * (2 + maxDeg g)

/-- The outer loop of `init_to_execute` over the graph root's edges: a
fresh DFS from each not-yet-seen root successor, sharing the seen set.
(The source would push a null root successor and crash on it; root
edges are valid, so a null one is skipped here.) -/
def init_to_execute_dfs (g : Graph) :
    List Edge → List (Nat × ExecInfo) → List Nat → List (Nat × ExecInfo)
  | [], ei, _ => ei
  | input :: rest, ei, seen =>
    match input.function with
    | none => init_to_execute_dfs g rest ei seen
    | some f =>
      if f ∈ seen then init_to_execute_dfs g rest ei seen
      else
        let r := dfs_loop g (dfsFuel g) [⟨f, 0⟩] seen ei
        init_to_execute_dfs g rest r.1 r.2

/-- Source `GraphTask::init_to_execute`: mark the root needed, register one
capture per requested output edge, size `captured_vars_`, then compute
the `needed_` flags bottom-up by the explicit-stack DFS. -/
def GraphTask.init_to_execute (gt : GraphTask) (g : Graph) (root : Nat) (outputs : List Edge) :
    GraphTask :=
  let ei0 := setNeeded gt.exec_info root true
  let r := initCaptures outputs 0 ei0
  let captured := List.replicate r.2 (none : Tensor)
  let ei2 := init_to_execute_dfs g (g.next_edges root) r.1 []
  { gt with exec_info := ei2, captured_vars := captured }

/-- The engine's thread-local state: `worker_device`, the reentrancy
counters, and whether a local ready queue is bound (`false` models the
null `shared_ptr`). -/
structure TLS where
  worker_device : Int
  current_depth : Nat
  total_depth : Nat
  local_ready_queue : Bool
deriving DecidableEq, Repr

/-- Source `max_recursion_depth_`, set in the `Engine` constructor. -/
def Engine.max_recursion_depth : Nat := 100

/-- The reentrant depth given to a fresh `GraphTask` in `Engine::execute`:
`0` for a non-reentrant call, `total_depth + 1` for a reentrant one. -/
def reentrant_depth_for (wd : Int) (total_depth : Nat) : Nat :=
  if wd = NO_DEVICE then 0 else total_depth + 1

/-- How `execute_with_graph_task` drives a graph task: the calling
thread becomes the CPU driver, or a reentrant call recurses inline, or
it is handed to the reentrant thread pool. -/
inductive DriveMode
  | driveRoot
  | driveInline
  | drivePool
deriving DecidableEq, Repr

/-- The branch structure of `Engine::execute_with_graph_task`:
non-reentrant callers drive as the CPU worker; a reentrant caller
recurses inline only below `max_recursion_depth_`, otherwise the graph
task goes to the thread pool. -/
def drive_mode (wd : Int) (current_depth : Nat) : DriveMode :=
  if wd = NO_DEVICE then .driveRoot
  else if current_depth ≥ Engine.max_recursion_depth then .drivePool
  else .driveInline

/-- Everything observable from one `Engine::execute` call: the returned
or thrown result, the caller's thread-local state afterwards, and the
final worker-loop state (absent when seed validation threw first). -/
structure ExecOutcome where
  result : Except String (List Tensor)
  tls : TLS
  run : Option LocalState
deriving Repr

/-- Source `Engine::execute_with_graph_task`: push the graph root onto the CPU
queue and drive it.  The pool hand-off is sequentialized: the pool
worker shares the caller's queue and runs the same loop, so the model
runs it in place; the inline path restores the depth counters it
bumped, leaving the TLS unchanged. -/
def execute_with_graph_task (g : Graph) (gt : GraphTask) (rootId : Nat) (tls : TLS)
    (fuel : Nat) : ExecOutcome :=
  let rootTask : NodeTask :=
    { base := some gt.reentrant_depth, fn := some rootId, inputs := [] }
  let s0 : LocalState :=
    { gt := { gt with outstanding_tasks := gt.outstanding_tasks + 1 },
      queue := [rootTask], invokedLog := [], enqueuedLog := [rootId] }
  match drive_mode tls.worker_device tls.current_depth with
  | .driveRoot =>
    let s1 := thread_main g fuel { s0 with gt := { s0.gt with owner := CPU_DEVICE } }
    let tls2 : TLS := { tls with worker_device := NO_DEVICE, local_ready_queue := false }
    { result := s1.gt.future_result.wait, tls := tls2, run := some s1 }
  | .driveInline =>
    let s1 := thread_main g fuel { s0 with gt := { s0.gt with owner := tls.worker_device } }
    { result := s1.gt.future_result.wait, tls := tls, run := some s1 }
  | .drivePool =>
    let s1 := thread_main g fuel { s0 with gt := { s0.gt with owner := tls.worker_device } }
    { result := s1.gt.future_result.wait, tls := tls, run := some s1 }

/-- The fresh `GraphTask` built by `Engine::execute` (the base engine
constructs it with `exit_on_error_ = false`). -/
def mkGraphTask (keep_graph create_graph : Bool) (depth : Nat) : GraphTask :=
  { outstanding_tasks := 0, dependencies := [], not_ready := [], exec_info := [],
    captured_vars := [], keep_graph := keep_graph, create_graph := create_graph,
    exit_on_error := false, has_error := false, future_result := .pending,
    reentrant_depth := depth, owner := NO_DEVICE }

/-- Source `Engine::execute`: validate the seeds against the root edges (the
source validates them in place, so the graph root returns the validated
seeds), bind a fresh CPU queue for a non-reentrant caller, build the
graph task with the proper reentrant depth, run dependency analysis and
— when outputs were requested — the needed-subgraph pass, then drive.
The synthetic `GraphRoot` is the node `rootId`, whose `apply` returns
the validated seeds. -/
def Engine.execute (g : Graph) (rootId : Nat) (inputs : List Tensor)
    (keep_graph create_graph : Bool) (outputs : List Edge) (tls : TLS) (fuel : Nat) :
    ExecOutcome :=
  match validate_outputs g (g.next_edges rootId) inputs with
  | .error e => { result := .error e, tls := tls, run := none }
  | .ok vinputs =>
    let tls1 := if tls.worker_device = NO_DEVICE then { tls with local_ready_queue := true }
                else tls
    let g' : Graph :=
      { g with applyFn := fun n args => if n = rootId then .ok vinputs else g.applyFn n args }
    let gt0 := mkGraphTask keep_graph create_graph
      (reentrant_depth_for tls.worker_device tls.total_depth)
    let gt1 : GraphTask := { gt0 with dependencies := compute_dependencies g' rootId }
    let gt2 := if outputs.isEmpty then gt1 else gt1.init_to_execute g' rootId outputs
    execute_with_graph_task g' gt2 rootId tls1 fuel

/-! Concrete graphs used to exercise the model: a scalar float CPU
tensor of shape `[1]` everywhere, so seed validation passes and the
interesting behavior is the scheduling itself. -/

/-- A defined dense float CPU tensor of shape `[1]` with payload `v`. -/
def mkT (v : Int) : Tensor :=
  some { sizes := [1], dtype := .float, devType := .cpu, deviceIndex := 0,
         isSparse := false, value := v }

/-- Payload of a tensor (0 for the undefined sentinel). -/
def tval (t : Tensor) : Int :=
  match t with
  | some d => d.value
  | none => 0

/-- Metadata matching `mkT`: shape `[1]`, dense float on CPU 0. -/
def floatMeta : InputMetadata :=
  { shape := [1], options := { dtype := .float, devType := .cpu, isSparse := false },
    device := { devType := .cpu, index := 0 } }

/-- The pruning scenario of the spec: `GraphRoot (0) → A (1) → B (2) →
{C (3), D (4)}` with output requested at edge `(B, 0)`.  `A` triples
its input; `B`'s own outputs are constants (they are never consumed in
the pruned run). -/
def pruneGraph : Graph :=
  { numNodes := 5,
    next_edges := fun n =>
      match n with
      | 0 => [⟨some 1, 0⟩]
      | 1 => [⟨some 2, 0⟩]
      | 2 => [⟨some 3, 0⟩, ⟨some 4, 0⟩]
      | _ => [],
    num_inputs := fun n => match n with | 0 => 0 | _ => 1,
    input_metadata := fun _ _ => floatMeta,
    applyFn := fun n args =>
      match n with
      | 1 => .ok [mkT (3 * tval (args.getD 0 none))]
      | 2 => .ok [mkT 1, mkT 2]
      | _ => .ok [] }

/-- The requested outputs of the pruning scenario: edge `(B, 0)`. -/
def pruneOutputs : List Edge := [⟨some 2, 0⟩]

/-- The initial thread-local state of a caller thread. -/
def tls0 : TLS :=
  { worker_device := NO_DEVICE, current_depth := 0, total_depth := 0,
    local_ready_queue := false }

/-- The full pruned backward run (seed 5 at the root). -/
def pruneRun : ExecOutcome :=
  Engine.execute pruneGraph 0 [mkT 5] true false pruneOutputs tls0 20

/-- The exec-info map the pruned run computes (exposed for the needed
flag equations). -/
def pruneExecInfo : List (Nat × ExecInfo) :=
  ((mkGraphTask true false 0).init_to_execute pruneGraph 0 pruneOutputs).exec_info

/-- The diamond scenario of the spec: `GraphRoot (0) → A (1) → {B (2),
C (3)} → D (4)`, with `B` feeding `D`'s slot 0 and `C` feeding slot 1. -/
def diamondGraph : Graph :=
  { numNodes := 5,
    next_edges := fun n =>
      match n with
      | 0 => [⟨some 1, 0⟩]
      | 1 => [⟨some 2, 0⟩, ⟨some 3, 0⟩]
      | 2 => [⟨some 4, 0⟩]
      | 3 => [⟨some 4, 1⟩]
      | _ => [],
    num_inputs := fun n => match n with | 0 => 0 | 1 => 1 | 2 => 1 | 3 => 1 | _ => 2,
    input_metadata := fun _ _ => floatMeta,
    applyFn := fun n args =>
      match n with
      | 1 => .ok [mkT (tval (args.getD 0 none) + 1), mkT (tval (args.getD 0 none) + 2)]
      | 2 => .ok [mkT (2 * tval (args.getD 0 none))]
      | 3 => .ok [mkT (3 * tval (args.getD 0 none))]
      | _ => .ok [] }

/-- The full diamond backward run (seed 1, no requested outputs). -/
def diamondRun : ExecOutcome :=
  Engine.execute diamondGraph 0 [mkT 1] true false [] tls0 20

/-- The dependency map the diamond run computes. -/
def diamondDeps : List (Nat × Int) := compute_dependencies diamondGraph 0

/-- Nodes reachable from a root by a fuel-bounded breadth-first sweep
(used to state in-degree counts over the reachable set). -/
def reachableFrom (g : Graph) (root : Nat) : List Nat :=
  let step := fun (acc : List Nat) (_ : Nat) =>
    acc.foldl
      (fun acc2 n =>
        (g.next_edges n).foldl
          (fun acc3 e =>
            match e.function with
            | some f => if f ∈ acc3 then acc3 else acc3 ++ [f]
            | none => acc3)
          acc2)
      acc
  (List.range g.numNodes).foldl step [root]

/-- Number of graph edges from the given nodes into `n`. -/
def countInEdges (g : Graph) (sources : List Nat) (n : Nat) : Nat :=
  (sources.map fun m => ((g.next_edges m).filter fun e => e.function == some n).length).sum

/-- The error scenario: `GraphRoot (0) → {X (1), Y (2)}`; `X`'s backward
throws, `Y` is already queued when the error latches. -/
def errGraph : Graph :=
  { numNodes := 3,
    next_edges := fun n =>
      match n with
      | 0 => [⟨some 1, 0⟩, ⟨some 2, 0⟩]
      | _ => [],
    num_inputs := fun n => match n with | 0 => 0 | _ => 1,
    input_metadata := fun _ _ => floatMeta,
    applyFn := fun n _ =>
      match n with
      | 1 => .error "boom"
      | _ => .ok [] }

/-- The full erroring backward run (seeds 1 and 1). -/
def errRun : ExecOutcome :=
  Engine.execute errGraph 0 [mkT 1, mkT 1] true false [] tls0 20

/-- Nodes whose `call_function` was entered during a run. -/
def ExecOutcome.invoked (o : ExecOutcome) : List Nat :=
  (o.run.map fun s => s.invokedLog).getD []

/-- Nodes pushed as node tasks during a run. -/
def ExecOutcome.enqueued (o : ExecOutcome) : List Nat :=
  (o.run.map fun s => s.enqueuedLog).getD []

/-- The captured output variables at the end of a run. -/
def ExecOutcome.captured (o : ExecOutcome) : List Tensor :=
  (o.run.map fun s => s.gt.captured_vars).getD []

/-- The dependency map left at the end of a run. -/
def ExecOutcome.finalDeps (o : ExecOutcome) : List (Nat × Int) :=
  (o.run.map fun s => s.gt.dependencies).getD []

/-- The graph task at the end of a run. -/
def ExecOutcome.finalGT (o : ExecOutcome) : GraphTask :=
  (o.run.map fun s => s.gt).getD (mkGraphTask false false 0)

/-- A one-node graph whose single input expects shape `[2]` (float,
dense, CPU 0); used to exercise each `validate_outputs` check. -/
def valGraph : Graph :=
  { numNodes := 1,
    next_edges := fun _ => [],
    num_inputs := fun _ => 1,
    input_metadata := fun _ _ =>
      { shape := [2], options := { dtype := .float, devType := .cpu, isSparse := false },
        device := { devType := .cpu, index := 0 } },
    applyFn := fun _ _ => .ok [] }

/-- A graph-task fixture with one unneeded capturing node (node 2). -/
def gtSkipFix : GraphTask :=
  { mkGraphTask true false 0 with
      exec_info := [(2, { needed := false, captures := [⟨0, 0⟩] })],
      captured_vars := [none] }

/-- A graph-task fixture with a single pending dependency on node 4. -/
def gtDepFix : GraphTask :=
  { mkGraphTask true false 0 with dependencies := [(4, 1)] }

/-- A graph-task fixture with the error latch already set. -/
def gtErrFix : GraphTask :=
  { mkGraphTask true false 0 with has_error := true, future_result := .errored "first" }

/-- A worker-state fixture: error latched, one pending task for node 1. -/
def drainFix : LocalState :=
  { gt := { gtErrFix with outstanding_tasks := 1 },
    queue := [{ base := some 0, fn := some 1, inputs := [mkT 1] }],
    invokedLog := [0], enqueuedLog := [0, 1] }

/-- A graph-task fixture completed while a buffer is still pending. -/
def gtStuckFix : GraphTask :=
  { mkGraphTask true false 0 with not_ready := [(3, [none, mkT 2])] }

/-! Specification-side views of the dependency DFS, used to state its
correctness: `bumpDeps` and `sweepSeen` are the two independent halves
of `countEdges`, `dfsTrace` mirrors the worklist loop while recording
the processed nodes, and `Reaches` is plain graph reachability. -/

/-- The dependency-count half of one `compute_dependencies` iteration:
bump the count of every non-null successor. -/
def bumpDeps : List Edge → List (Nat × Int) → List (Nat × Int)
  | [], deps => deps
  | e :: rest, deps =>
    match e.function with
    | none => bumpDeps rest deps
    | some f => bumpDeps rest (setA f ((lookupA f deps).getD 0 + 1) deps)

/-- The seen/worklist half of one `compute_dependencies` iteration:
push every non-null successor on first visit. -/
def sweepSeen : List Edge → List Nat → List Nat → List Nat × List Nat
  | [], seen, pushes => (seen, pushes)
  | e :: rest, seen, pushes =>
    match e.function with
    | none => sweepSeen rest seen pushes
    | some f =>
      if f ∈ seen then sweepSeen rest seen pushes
      else sweepSeen rest (f :: seen) (pushes ++ [f])

/-- The worklist loop of `compute_dependencies` with the dependency map
erased, recording instead the processed nodes, the final worklist and
the final seen set. -/
def dfsTrace (g : Graph) : Nat → List Nat → List Nat → List Nat × List Nat × List Nat
  | 0, q, seen => ([], q, seen)
  | _ + 1, [], seen => ([], [], seen)
  | fuel + 1, fn :: rest, seen =>
    let sp := sweepSeen (g.next_edges fn) seen []
    let r := dfsTrace g fuel (sp.2.reverse ++ rest) sp.1
    (fn :: r.1, r.2.1, r.2.2)

/-- Reachability along non-null graph edges, from the root. -/
inductive Reaches (g : Graph) (root : Nat) : Nat → Prop
  | refl : Reaches g root root
  | step {m n : Nat} (hm : Reaches g root m) (e : Edge)
      (he : e ∈ g.next_edges m) (hf : e.function = some n) : Reaches g root n

/-- Every non-null successor in the graph stays below `numNodes`. -/
def Graph.Closed (g : Graph) : Prop :=
  ∀ m e f, e ∈ g.next_edges m → e.function = some f → f < g.numNodes

/-- No graph edge points at the node (the defining property of the
synthetic `GraphRoot`). -/
def Graph.NoInEdges (g : Graph) (root : Nat) : Prop :=
  ∀ m e, e ∈ g.next_edges m → e.function ≠ some root

/-- The nodes the dependency DFS processes when started the way
`compute_dependencies` starts it. -/
def dependencyScope (g : Graph) (root : Nat) : List Nat :=
  (dfsTrace g (g.numNodes + 1) [root] []).1

/-! Specification-side views of the `init_to_execute` DFS: `dfs2`
mirrors `dfs_loop` with the exec-info map erased, recording instead the
pop order, the final seen set and the final stack; `initPops` composes
it across the outer loop; `applyPops` replays the post-order `needed`
writes; `PopsOK` says each popped node's successors were all popped
before it; `neededSpecF` is the recursive needed function of the
source's own comment, fuel-indexed. -/

/-- The `init_to_execute` DFS with the exec-info map erased, returning
the nodes popped in order, the final seen set and the final stack. -/
def dfs2 (g : Graph) : Nat → List Frame → List Nat → List Nat × List Nat × List Frame
  | 0, stack, seen => ([], seen, stack)
  | _ + 1, [], seen => ([], seen, [])
  | fuel + 1, frame :: rest, seen =>
    match get_next_fn g frame.fn frame.next_next_fn with
    | some (next_fn, k') =>
      let stack' := { frame with next_next_fn := k' } :: rest
      if next_fn ∈ seen then dfs2 g fuel stack' seen
      else dfs2 g fuel (⟨next_fn, 0⟩ :: stack') (next_fn :: seen)
    | none =>
      let r := dfs2 g fuel rest seen
      (frame.fn :: r.1, r.2)

/-- The outer loop of the `init_to_execute` DFS with the map erased:
pops in order and the final seen set. -/
def initPops (g : Graph) : List Edge → List Nat → List Nat × List Nat
  | [], seen => ([], seen)
  | input :: rest, seen =>
    match input.function with
    | none => initPops g rest seen
    | some f =>
      if f ∈ seen then initPops g rest seen
      else
        let r := dfs2 g (dfsFuel g) [⟨f, 0⟩] seen
        let r2 := initPops g rest r.2.1
        (r.1 ++ r2.1, r2.2)

/-- Replay the post-order `needed` writes of the DFS, one per pop. -/
def applyPops (g : Graph) : List Nat → List (Nat × ExecInfo) → List (Nat × ExecInfo)
  | [], ei => ei
  | n :: rest, ei => applyPops g rest (setNeeded ei n (neededOf g ei n))

/-- Each popped node's non-null successors all lie in the set of nodes
popped before it (the essence of post-order on a DAG). -/
def PopsOK (g : Graph) : List Nat → List Nat → Prop
  | [], _ => True
  | n :: rest, p =>
    (∀ e ∈ g.next_edges n, ∀ f, e.function = some f → f ∈ p) ∧ PopsOK g rest (n :: p)

/-- The recursive needed function from the source comment
(`is_needed[fn] = any(compute_is_needed(next_edge))`), fuel-indexed so
it is total; `caps` tells which nodes carry captures. -/
def neededSpecF (g : Graph) (caps : Nat → Bool) : Nat → Nat → Bool
  | 0, _ => false
  | fuel + 1, n =>
    (g.next_edges n).any fun e =>
      match e.function with
      | none => false
      | some s => neededSpecF g caps fuel s || caps s

/-- Whether a node's exec-info entry carries captures. -/
def capsOf (m : List (Nat × ExecInfo)) (k : Nat) : Bool :=
  !(getEI m k).captures.isEmpty

/-- Remaining edge positions of a suspended frame, plus one. -/
def frameSlack (g : Graph) (fr : Frame) : Nat :=
  (g.next_edges fr.fn).length + 1 - fr.next_next_fn

/-- Termination measure of the `init_to_execute` DFS: pending frame
slack plus capacity for frames not yet discovered. -/
def stackMeasure (g : Graph) (stack : List Frame) (seen : List Nat) : Nat :=
  (stack.map (frameSlack g)).sum + (g.numNodes - seen.length) * (maxDeg g + 2)

/-- Every non-null successor a frame has already scanned is seen. -/
def FrameScanned (g : Graph) (seen : List Nat) (fr : Frame) : Prop :=
  ∀ e ∈ (g.next_edges fr.fn).take fr.next_next_fn, ∀ f, e.function = some f → f ∈ seen

/-- The DFS stack is strictly rank-increasing from top to bottom. -/
def StackRanked (rank : Nat → Nat) (stack : List Frame) : Prop :=
  List.Pairwise (fun a b => rank a.fn < rank b.fn) stack

/-- A rank function witnessing acyclicity: every edge strictly lowers
the rank. -/
def RankedGraph (g : Graph) (rank : Nat → Nat) : Prop :=
  ∀ m e f, e ∈ g.next_edges m → e.function = some f → rank f < rank m

/-! Theorems.  Helper lemmas are shared; the claim theorems themselves
are standalone. -/

theorem validateCompat_ok {md : InputMetadata} {t2 : TensorData} {x : Tensor}
    (h : validateCompat md t2 = Except.ok x) :
    x = some t2 ∧ t2.device = md.device := by
  unfold validateCompat at h
  split at h
  · split at h
    · rename_i hdev
      injection h with h'
      exact ⟨h'.symm, hdev⟩
    · exact absurd h (by simp)
  · exact absurd h (by simp)

theorem castTo_device (t : TensorData) (st : ScalarType) :
    (castTo t st).device = t.device := rfl

theorem validateTyped_ok {md : InputMetadata} {t1 : TensorData} {x : Tensor}
    (h : validateTyped md t1 = Except.ok x) :
    ∃ t2, x = some t2 ∧ t2.sizes = t1.sizes ∧ t2.dtype = md.options.dtype ∧
      t2.device = md.device := by
  unfold validateTyped at h
  split at h
  · obtain ⟨hx, hdev⟩ := validateCompat_ok h
    refine ⟨_, hx, ?_, ?_, hdev⟩
    · by_cases hd : md.options.dtype = t1.dtype <;> simp [hd, castTo]
    · by_cases hd : md.options.dtype = t1.dtype <;> simp [hd, castTo]
  · exact absurd h (by simp)

theorem validateTyped_device_err {md : InputMetadata} {t1 : TensorData}
    (h : t1.device ≠ md.device) : isErr (validateTyped md t1) = true := by
  unfold validateTyped
  split
  · by_cases hd : md.options.dtype = t1.dtype
    · rw [if_pos hd]
      simp only [validateCompat]
      by_cases hc : is_compatible_type md.options t1.options
      · rw [if_pos hc, if_neg h]
        rfl
      · rw [if_neg hc]
        rfl
    · rw [if_neg hd]
      simp only [validateCompat]
      by_cases hc : is_compatible_type md.options (castTo t1 md.options.dtype).options
      · rw [if_pos hc,
          if_neg (show ¬(castTo t1 md.options.dtype).device = md.device by
            rw [castTo_device]; exact h)]
        rfl
      · rw [if_neg hc]
        rfl
  · rfl

theorem validateTyped_nonfloat_err {md : InputMetadata} {t1 : TensorData}
    (h : isFloatingType t1.dtype = false) : isErr (validateTyped md t1) = true := by
  unfold validateTyped
  rw [if_neg (by simp [h])]
  rfl

/-- C4: for a defined gradient at a valid edge, `validate_outputs`
errors when the shape neither equals nor is sum-reducible to the
expected shape; on success the gradient has been sum-reduced to the
expected shape and cast to the expected dtype on the expected device; a
non-floating gradient dtype errors; and a gradient on the wrong device
errors. -/
theorem validate_outputs_checks (g : Graph) (fnId nr : Nat) (t : TensorData) :
    (t.sizes ≠ (g.input_metadata fnId nr).shape →
      is_expandable_to (g.input_metadata fnId nr).shape t.sizes = false →
      validateItem g ⟨some fnId, nr⟩ (some t) =
        .error "invalid gradient: shape incompatible with expected shape") ∧
    (∀ t', validateItem g ⟨some fnId, nr⟩ (some t) = .ok (some t') →
      t'.sizes = (g.input_metadata fnId nr).shape ∧
      t'.dtype = (g.input_metadata fnId nr).options.dtype ∧
      t'.device = (g.input_metadata fnId nr).device) ∧
    (isFloatingType t.dtype = false →
      isErr (validateItem g ⟨some fnId, nr⟩ (some t)) = true) ∧
    (t.device ≠ (g.input_metadata fnId nr).device →
      isErr (validateItem g ⟨some fnId, nr⟩ (some t)) = true) := by
  refine ⟨?_, ?_, ?_, ?_⟩
  · intro h1 h2
    simp [validateItem, h1, h2]
  · intro t' h
    simp only [validateItem] at h
    split at h
    · obtain ⟨t2, hx, hs, hd, hdev⟩ := validateTyped_ok h
      injection hx with hx
      subst hx
      rename_i hsz
      exact ⟨hs.trans hsz, hd, hdev⟩
    · split at h
      · obtain ⟨t2, hx, hs, hd, hdev⟩ := validateTyped_ok h
        injection hx with hx
        subst hx
        refine ⟨hs.trans ?_, hd, hdev⟩
        simp [sum_to]
      · exact absurd h (by simp)
  · intro h
    simp only [validateItem]
    split
    · exact validateTyped_nonfloat_err h
    · split
      · exact validateTyped_nonfloat_err (by simpa [sum_to] using h)
      · rfl
  · intro h
    simp only [validateItem]
    split
    · exact validateTyped_device_err h
    · split
      · exact validateTyped_device_err (by simpa [sum_to, TensorData.device] using h)
      · rfl

/-- Witness for C4: each check exercised at a concrete gradient against
the shape-`[2]` float CPU metadata of `valGraph` — an unreducible shape
errors, a broadcast double gradient is sum-reduced and cast, an integer
gradient errors, and a CUDA gradient against CPU metadata errors. -/
theorem validate_outputs_checks_witness :
    validateItem valGraph ⟨some 0, 0⟩
        (some { sizes := [3], dtype := .float, devType := .cpu, deviceIndex := 0,
                isSparse := false, value := 1 }) =
      .error "invalid gradient: shape incompatible with expected shape" ∧
    (List.cons 2 [] = [2] ∧ ScalarType.float = .float ∧
      (Device.mk .cpu 0 : Device) = ⟨.cpu, 0⟩) ∧
    isErr (validateItem valGraph ⟨some 0, 0⟩
      (some { sizes := [2], dtype := .int64, devType := .cpu, deviceIndex := 0,
              isSparse := false, value := 1 })) = true ∧
    isErr (validateItem valGraph ⟨some 0, 0⟩
      (some { sizes := [2], dtype := .float, devType := .cuda, deviceIndex := 0,
              isSparse := false, value := 1 })) = true := by
  refine ⟨?_, ?_, ?_, ?_⟩
  · exact (validate_outputs_checks valGraph 0 0
      { sizes := [3], dtype := .float, devType := .cpu, deviceIndex := 0,
        isSparse := false, value := 1 }).1 (by decide) (by decide)
  · exact (validate_outputs_checks valGraph 0 0
      { sizes := [1, 2], dtype := .double, devType := .cpu, deviceIndex := 0,
        isSparse := false, value := 4 }).2.1
      { sizes := [2], dtype := .float, devType := .cpu, deviceIndex := 0,
        isSparse := false, value := 4 } rfl
  · exact (validate_outputs_checks valGraph 0 0
      { sizes := [2], dtype := .int64, devType := .cpu, deviceIndex := 0,
        isSparse := false, value := 1 }).2.2.1 (by decide)
  · exact (validate_outputs_checks valGraph 0 0
      { sizes := [2], dtype := .float, devType := .cuda, deviceIndex := 0,
        isSparse := false, value := 1 }).2.2.2 (by decide)

theorem validateItem_none (g : Graph) (e : Edge) : validateItem g e none = .ok none := by
  rcases e with ⟨f, nr⟩
  cases f <;> rfl

theorem validateList_none (g : Graph) :
    ∀ (edges : List Edge) (grads : List Tensor), grads.length = edges.length →
      (∀ t ∈ grads, t = none) → validateList g edges grads = .ok grads := by
  intro edges
  induction edges with
  | nil =>
    intro grads hl _
    cases grads with
    | nil => rfl
    | cons t ts => simp at hl
  | cons e es ih =>
    intro grads hl hn
    cases grads with
    | nil => simp at hl
    | cons t ts =>
      have ht : t = none := hn t (by simp)
      subst ht
      have h2 := ih ts (by simpa using hl) (fun x hx => hn x (by simp [hx]))
      simp [validateList, validateItem_none, h2]

/-- C6: an undefined gradient at a valid edge passes `validate_outputs`
untouched — the per-index loop skips every check for that index,
returns it still undefined, and raises no invalid-gradient error; a
gradient list that is undefined everywhere validates as-is. -/
theorem undefined_gradient_passthrough :
    (∀ (g : Graph) (e : Edge), validateItem g e none = .ok none) ∧
    (∀ (g : Graph) (edges : List Edge) (grads : List Tensor),
      grads.length = edges.length → (∀ t ∈ grads, t = none) →
      validate_outputs g edges grads = .ok grads) := by
  refine ⟨validateItem_none, ?_⟩
  intro g edges grads hl hn
  unfold validate_outputs
  rw [if_neg (by simp [hl])]
  exact validateList_none g edges grads hl hn

/-- Witness for C6: a two-slot all-undefined gradient list against
`pruneGraph`'s node-B edges validates untouched. -/
theorem undefined_gradient_passthrough_witness :
    validateItem pruneGraph ⟨some 3, 0⟩ none = .ok none ∧
    validate_outputs pruneGraph (pruneGraph.next_edges 2) [none, none] = .ok [none, none] := by
  exact ⟨undefined_gradient_passthrough.1 pruneGraph ⟨some 3, 0⟩,
    undefined_gradient_passthrough.2 pruneGraph (pruneGraph.next_edges 2) [none, none]
      (by decide) (by decide)⟩

/-- C9: if a graph task reaches completion while `not_ready_` still
holds a buffered node, post-processing throws "could not compute
gradients for some functions", `mark_graph_task_completed` turns that
exception into an error on the future, and waiting on the future then
raises instead of returning gradients. -/
theorem not_ready_completion_error (gt : GraphTask)
    (h1 : gt.not_ready ≠ []) (h2 : gt.future_result = .pending) :
    graph_task_exec_post_processing gt =
      .error "could not compute gradients for some functions" ∧
    (mark_graph_task_completed gt).future_result =
      .errored "could not compute gradients for some functions" ∧
    (mark_graph_task_completed gt).future_result.wait =
      .error "could not compute gradients for some functions" := by
  have hne : gt.not_ready.isEmpty = false := by
    cases hnr : gt.not_ready with
    | nil => exact absurd hnr h1
    | cons a l => rfl
  have hpost : graph_task_exec_post_processing gt =
      .error "could not compute gradients for some functions" := by
    unfold graph_task_exec_post_processing
    rw [if_pos (by simp [hne])]
  have hmark : (mark_graph_task_completed gt).future_result =
      .errored "could not compute gradients for some functions" := by
    unfold mark_graph_task_completed
    rw [if_neg (by simp [h2, FutureResult.completedFlag]), hpost]
  exact ⟨hpost, hmark, by rw [hmark]; rfl⟩

/-- Witness for C9: the stuck fixture (node 3 buffered, future pending)
yields the error on the future. -/
theorem not_ready_completion_error_witness :
    graph_task_exec_post_processing gtStuckFix =
      .error "could not compute gradients for some functions" ∧
    (mark_graph_task_completed gtStuckFix).future_result =
      .errored "could not compute gradients for some functions" ∧
    (mark_graph_task_completed gtStuckFix).future_result.wait =
      .error "could not compute gradients for some functions" :=
  not_ready_completion_error gtStuckFix (by decide) (by decide)

theorem foldl_and_isEmpty (qs : List (List NodeTask)) (b : Bool) :
    qs.foldl (fun acc q => acc && q.isEmpty) b = (b && qs.all List.isEmpty) := by
  induction qs generalizing b with
  | nil => simp
  | cons q rest ih => simp [List.foldl_cons, ih, Bool.and_assoc]

/-- C10: the engine destructor pushes a shutdown task onto every device
ready queue exactly when every device ready queue is empty; if any
queue is non-empty, no queue is touched (and the worker threads leak). -/
theorem engine_dtor_shutdown (qs : List (List NodeTask)) :
    ((∀ q ∈ qs, q = []) →
      Engine.dtor qs = qs.map (fun q => q ++ [shutdownTask])) ∧
    ((∃ q ∈ qs, q ≠ []) → Engine.dtor qs = qs) := by
  constructor
  · intro h
    have hall : qs.all List.isEmpty = true := by
      rw [List.all_eq_true]
      intro q hq
      simp [h q hq]
    simp [Engine.dtor, foldl_and_isEmpty, hall]
  · rintro ⟨q, hq, hne⟩
    have hall : qs.all List.isEmpty = false := by
      by_contra hcon
      have htrue : qs.all List.isEmpty = true := by
        cases hq2 : qs.all List.isEmpty
        · exact absurd hq2 hcon
        · rfl
      rw [List.all_eq_true] at htrue
      have hempty := htrue q hq
      cases q with
      | nil => exact hne rfl
      | cons a l => simp at hempty
    simp [Engine.dtor, foldl_and_isEmpty, hall]

/-- Witness for C10: an engine with one empty queue receives the
shutdown task; an engine with one occupied queue is left untouched. -/
theorem engine_dtor_shutdown_witness :
    Engine.dtor [[]] = [[shutdownTask]] ∧
    Engine.dtor [[shutdownTask]] = [[shutdownTask]] := by
  constructor
  · have h := (engine_dtor_shutdown [[]]).1 (by simp)
    simpa using h
  · exact (engine_dtor_shutdown [[shutdownTask]]).2
      ⟨[shutdownTask], by simp, by simp⟩

/-- C8: `getReentrantDepth` returns the graph task's reentrant depth
while the weak reference is alive and the maximum `int` once it has
expired; under the ready-queue priority order an expired (non-shutdown)
task therefore sorts ahead of every task of a live graph task of
ordinary depth, and only shutdown tasks sort ahead of it. -/
theorem getReentrantDepth_priority :
    (∀ (t : NodeTask) (d : Nat), t.base = some d →
      t.getReentrantDepth = (d : Int)) ∧
    (∀ t : NodeTask, t.base = none → t.getReentrantDepth = intMax) ∧
    (∀ (t u : NodeTask) (d : Nat), t.base = none → t.isShutdown = false →
      u.isShutdown = false → u.base = some d → (d : Int) < intMax →
      NodeTask.higherPriority t u = true) ∧
    (∀ (s t : NodeTask), s.isShutdown = true → t.isShutdown = false →
      NodeTask.higherPriority s t = true) := by
  refine ⟨?_, ?_, ?_, ?_⟩
  · intro t d h
    simp [NodeTask.getReentrantDepth, h]
  · intro t h
    simp [NodeTask.getReentrantDepth, h]
  · intro t u d ht hts hus hu hlt
    simp [NodeTask.higherPriority, NodeTask.getReentrantDepth, ht, hts, hus, hu, hlt]
  · intro s t hs ht
    simp [NodeTask.higherPriority, hs, ht]

/-- Witness for C8: an expired task beats a live depth-3 task, and the
shutdown sentinel beats the expired task. -/
theorem getReentrantDepth_priority_witness :
    NodeTask.higherPriority { base := none, fn := some 1, inputs := [] }
      { base := some 3, fn := some 2, inputs := [] } = true ∧
    NodeTask.higherPriority shutdownTask
      { base := none, fn := some 1, inputs := [] } = true := by
  constructor
  · exact getReentrantDepth_priority.2.2.1
      { base := none, fn := some 1, inputs := [] }
      { base := some 3, fn := some 2, inputs := [] } 3 rfl rfl rfl rfl (by decide)
  · exact getReentrantDepth_priority.2.2.2 shutdownTask
      { base := none, fn := some 1, inputs := [] } rfl rfl

/-- C5: a fresh graph task's reentrant depth is 0 for a non-reentrant
call and `total_depth + 1` for a reentrant one; `max_recursion_depth`
is 100; and a reentrant call drives the worker loop inline exactly when
`current_depth < max_recursion_depth`, otherwise handing the graph task
to the reentrant thread pool. -/
theorem reentrant_depth_policy :
    Engine.max_recursion_depth = 100 ∧
    (∀ td : Nat, reentrant_depth_for NO_DEVICE td = 0) ∧
    (∀ (wd : Int) (td : Nat), wd ≠ NO_DEVICE → reentrant_depth_for wd td = td + 1) ∧
    (∀ (wd : Int) (cd : Nat), wd ≠ NO_DEVICE →
      (drive_mode wd cd = .driveInline ↔ cd < Engine.max_recursion_depth)) ∧
    (∀ (wd : Int) (cd : Nat), wd ≠ NO_DEVICE →
      (drive_mode wd cd = .drivePool ↔ ¬ cd < Engine.max_recursion_depth)) := by
  refine ⟨rfl, ?_, ?_, ?_, ?_⟩
  · intro td
    simp [reentrant_depth_for]
  · intro wd td h
    simp [reentrant_depth_for, h]
  · intro wd cd h
    unfold drive_mode
    rw [if_neg h]
    by_cases hc : cd ≥ Engine.max_recursion_depth
    · rw [if_pos hc]
      simp
      omega
    · rw [if_neg hc]
      simp
      omega
  · intro wd cd h
    unfold drive_mode
    rw [if_neg h]
    by_cases hc : cd ≥ Engine.max_recursion_depth
    · rw [if_pos hc]
      simp
      omega
    · rw [if_neg hc]
      simp
      omega

/-- Witness for C5: a reentrant caller on the CPU worker at depth 99
drives inline, at depth 100 it offloads to the pool, and its fresh
graph task carries depth `total_depth + 1`. -/
theorem reentrant_depth_policy_witness :
    reentrant_depth_for CPU_DEVICE 7 = 8 ∧
    (drive_mode CPU_DEVICE 99 = .driveInline ↔ (99 : Nat) < Engine.max_recursion_depth) ∧
    (drive_mode CPU_DEVICE 100 = .drivePool ↔ ¬ (100 : Nat) < Engine.max_recursion_depth) := by
  refine ⟨reentrant_depth_policy.2.2.1 CPU_DEVICE 7 (by decide),
    reentrant_depth_policy.2.2.2.1 CPU_DEVICE 99 (by decide),
    reentrant_depth_policy.2.2.2.2 CPU_DEVICE 100 (by decide)⟩

/-- C7: after a non-reentrant `execute` (entered with `worker_device ==
NO_DEVICE`) returns, the calling thread's thread-locals are restored —
`worker_device` is `NO_DEVICE` again and the local ready queue is
cleared — so a subsequent `execute` on the thread starts from the
initial state. -/
theorem tls_restored_after_execute (g : Graph) (rootId : Nat) (inputs : List Tensor)
    (kg cg : Bool) (outputs : List Edge) (tls : TLS) (fuel : Nat) (vinputs : List Tensor)
    (hw : tls.worker_device = NO_DEVICE)
    (hv : validate_outputs g (g.next_edges rootId) inputs = .ok vinputs) :
    (Engine.execute g rootId inputs kg cg outputs tls fuel).tls.worker_device = NO_DEVICE ∧
    (Engine.execute g rootId inputs kg cg outputs tls fuel).tls.local_ready_queue = false := by
  simp only [Engine.execute, hv]
  simp [execute_with_graph_task, drive_mode, hw]

/-- Witness for C7: the pruned concrete run restores the caller's
thread-locals. -/
theorem tls_restored_after_execute_witness :
    pruneRun.tls.worker_device = NO_DEVICE ∧
    pruneRun.tls.local_ready_queue = false :=
  tls_restored_after_execute pruneGraph 0 [mkT 5] true false pruneOutputs tls0 20
    [mkT 5] rfl rfl

theorem evaluate_function_skips (g : Graph) (gt : GraphTask) (f : Nat)
    (inputs : InputBuffer) (fi : ExecInfo)
    (h1 : gt.exec_info.isEmpty = false)
    (h2 : lookupA f gt.exec_info = some fi)
    (h3 : fi.needed = false) :
    evaluate_function g gt f inputs =
      { gt := { gt with captured_vars := captureInputs inputs fi.captures gt.captured_vars },
        pushes := [], invoked := false, err := none } := by
  unfold evaluate_function
  rw [if_neg (by simp [h1])]
  simp only [h2]
  rw [if_neg (by simp [h3])]

theorem lookupA_setA_self (k : Nat) (v : α) (l : List (Nat × α)) :
    lookupA k (setA k v l) = some v := by
  induction l with
  | nil => simp [setA, lookupA]
  | cons p rest ih =>
    rcases p with ⟨k', v'⟩
    by_cases hk : k' = k
    · simp [setA, hk, lookupA]
    · simp [setA, hk, lookupA, ih]

theorem lookupA_eq_none (k : Nat) (l : List (Nat × α))
    (h : k ∉ l.map Prod.fst) : lookupA k l = none := by
  induction l with
  | nil => rfl
  | cons p rest ih =>
    rcases p with ⟨k', v'⟩
    rw [List.map_cons, List.mem_cons] at h
    push_neg at h
    simp [lookupA, Ne.symm h.1, ih h.2]

theorem lookupA_eraseA_self (k : Nat) (l : List (Nat × α))
    (hnd : (l.map Prod.fst).Nodup) : lookupA k (eraseA k l) = none := by
  induction l with
  | nil => rfl
  | cons p rest ih =>
    rcases p with ⟨k', v'⟩
    simp at hnd
    by_cases hk : k' = k
    · subst hk
      simp only [eraseA, if_pos rfl]
      exact lookupA_eq_none k' rest (by simpa using hnd.1)
    · simp [eraseA, hk, lookupA, ih hnd.2]

theorem processOutput_dependency (g : Graph) (gt : GraphTask) (fnId i : Nat)
    (out : Tensor) (nextFn : Nat) (cnt : Int)
    (hei : gt.exec_info = [])
    (hedge : ((g.next_edges fnId).getD i ⟨none, 0⟩).function = some nextFn)
    (hlk : lookupA nextFn gt.dependencies = some cnt)
    (hnd : (gt.dependencies.map Prod.fst).Nodup) :
    ∃ gt' topt, processOutput g gt fnId i out = .ok (gt', topt) ∧
      lookupA nextFn gt'.dependencies = (if cnt = 1 then none else some (cnt - 1)) ∧
      (topt.isSome = true ↔ cnt = 1) := by
  simp only [processOutput, hedge, hlk]
  by_cases hc : cnt = 1
  · subst hc
    cases hnr : lookupA nextFn gt.not_ready with
    | none =>
      refine ⟨{ gt with dependencies := eraseA nextFn gt.dependencies },
        some { base := some gt.reentrant_depth, fn := some nextFn,
               inputs := InputBuffer.add (List.replicate (g.num_inputs nextFn) none)
                 ((g.next_edges fnId).getD i ⟨none, 0⟩).input_nr out },
        ?_, ?_, ?_⟩
      · simp [hnr, hei]
      · simpa using lookupA_eraseA_self nextFn gt.dependencies hnd
      · simp
    | some buf =>
      refine ⟨{ gt with dependencies := eraseA nextFn gt.dependencies,
                        not_ready := eraseA nextFn gt.not_ready },
        some { base := some gt.reentrant_depth, fn := some nextFn,
               inputs := InputBuffer.add buf
                 ((g.next_edges fnId).getD i ⟨none, 0⟩).input_nr out },
        ?_, ?_, ?_⟩
      · simp [hnr]
      · simpa using lookupA_eraseA_self nextFn gt.dependencies hnd
      · simp
  · have hz : ¬ cnt - 1 = 0 := by omega
    have hb : (cnt - 1 == 0) = false := by simpa using hz
    cases hnr : lookupA nextFn gt.not_ready with
    | none =>
      refine ⟨{ gt with dependencies := setA nextFn (cnt - 1) gt.dependencies,
                        not_ready := gt.not_ready ++
                          [(nextFn,
                            InputBuffer.add (List.replicate (g.num_inputs nextFn) none)
                              ((g.next_edges fnId).getD i ⟨none, 0⟩).input_nr out)] },
        none, ?_, ?_, ?_⟩
      · simp [hnr, hei, hb, hz]
      · simpa [hc] using lookupA_setA_self nextFn (cnt - 1) gt.dependencies
      · simp [hc]
    | some buf =>
      refine ⟨{ gt with dependencies := setA nextFn (cnt - 1) gt.dependencies,
                        not_ready := setA nextFn
                          (InputBuffer.add buf
                            ((g.next_edges fnId).getD i ⟨none, 0⟩).input_nr out)
                          gt.not_ready },
        none, ?_, ?_, ?_⟩
      · simp [hnr, hb, hz]
      · simpa [hc] using lookupA_setA_self nextFn (cnt - 1) gt.dependencies
      · simp [hc]

theorem diamondGraph_closed : diamondGraph.Closed := by
  intro m e f he hf
  rcases m with _ | _ | _ | _ | m <;> simp [diamondGraph] at he <;>
    rcases he with rfl | rfl <;> simp_all [diamondGraph] <;> omega

theorem diamondGraph_noInEdges : diamondGraph.NoInEdges 0 := by
  intro m e he hf
  rcases m with _ | _ | _ | _ | m <;> simp [diamondGraph] at he <;>
    rcases he with rfl | rfl <;> simp_all


theorem set_exception_latched (gt : GraphTask) (msg : String)
    (h : gt.has_error = true) : gt.set_exception msg = gt := by
  simp [GraphTask.set_exception, h]

theorem set_exception_first (gt : GraphTask) (msg : String)
    (h : gt.has_error = false) :
    (gt.set_exception msg).has_error = true ∧
    (gt.future_result = .pending →
      (gt.set_exception msg).future_result = .errored msg) ∧
    (gt.future_result.completedFlag = true →
      (gt.set_exception msg).future_result = gt.future_result) := by
  unfold GraphTask.set_exception
  rw [if_neg (by simp [h])]
  dsimp only
  by_cases hf : gt.future_result.completedFlag = true
  · rw [if_pos hf]
    exact ⟨rfl,
      fun hp => by rw [hp] at hf; simp [FutureResult.completedFlag] at hf,
      fun _ => rfl⟩
  · rw [if_neg hf]
    exact ⟨rfl, fun _ => rfl, fun hcf => absurd hcf hf⟩

theorem runTask_skip (g : Graph) (s : LocalState) (task : NodeTask)
    (h : s.gt.has_error = true) : runTask g s task = s := by
  rcases htf : task.fn with _ | f
  · simp [runTask, htf]
  · simp [runTask, htf, h]

theorem mark_completedFlag (gt : GraphTask) :
    (mark_graph_task_completed gt).future_result.completedFlag = true := by
  unfold mark_graph_task_completed
  by_cases h : gt.future_result.completedFlag = true
  · rw [if_pos h]
    exact h
  · rw [if_neg h]
    cases hp : graph_task_exec_post_processing gt <;> rfl

theorem mark_outstanding (gt : GraphTask) :
    (mark_graph_task_completed gt).outstanding_tasks = gt.outstanding_tasks := by
  unfold mark_graph_task_completed
  by_cases h : gt.future_result.completedFlag = true
  · rw [if_pos h]
  · rw [if_neg h]
    cases hp : graph_task_exec_post_processing gt <;> simp [hp]

theorem thread_main_drains (g : Graph) :
    ∀ (fuel : Nat) (s : LocalState),
      s.gt.has_error = true → s.gt.exit_on_error = false →
      s.gt.outstanding_tasks = s.queue.length →
      (∀ t ∈ s.queue, t.isShutdown = false ∧ t.base.isSome = true) →
      s.queue ≠ [] → s.queue.length ≤ fuel →
      (thread_main g fuel s).queue = [] ∧
      (thread_main g fuel s).invokedLog = s.invokedLog ∧
      (thread_main g fuel s).gt.outstanding_tasks = 0 ∧
      (thread_main g fuel s).gt.future_result.completedFlag = true := by
  intro fuel
  induction fuel with
  | zero =>
    rintro s _ _ _ _ hne hlen
    cases hq : s.queue with
    | nil => exact absurd hq hne
    | cons a l =>
      rw [hq] at hlen
      simp at hlen
  | succ fuel ih =>
    rintro ⟨gt, queue, ilog, elog⟩ herr hexit hout htasks hne hlen
    cases queue with
    | nil => exact absurd rfl hne
    | cons task rest =>
      dsimp only at herr hexit hout htasks hne hlen
      obtain ⟨hsh, hbase⟩ := htasks task (by simp)
      have hskip : runTask g ⟨gt, rest, ilog, elog⟩ task = ⟨gt, rest, ilog, elog⟩ :=
        runTask_skip g ⟨gt, rest, ilog, elog⟩ task herr
      simp only [thread_main, hsh, Bool.false_eq_true, if_false,
        Option.isNone_iff_eq_none]
      rw [if_neg (by
        intro hcon
        rw [hcon] at hbase
        simp at hbase)]
      simp only [hskip]
      by_cases hrest : rest = []
      · subst hrest
        have hz : gt.outstanding_tasks - 1 = 0 := by
          simp at hout
          omega
        rw [if_pos (by simp [graph_task_completed, hz])]
        refine ⟨rfl, rfl, ?_, mark_completedFlag _⟩
        rw [mark_outstanding]
        simpa using hz
      · have hrl : 1 ≤ rest.length := by
          cases rest with
          | nil => exact absurd rfl hrest
          | cons a l => simp
        have hgtc : graph_task_completed
            { gt with outstanding_tasks := gt.outstanding_tasks - 1 } = false := by
          simp [graph_task_completed, hexit]
          simp at hout
          omega
        rw [if_neg (by simp [hgtc])]
        have hres := ih ⟨{ gt with outstanding_tasks := gt.outstanding_tasks - 1 },
            rest, ilog, elog⟩ herr hexit
          (by
            simp at hout ⊢
            omega)
          (fun t ht => htasks t (by simp [ht]))
          hrest
          (by
            simp at hlen ⊢
            omega)
        exact hres

/-- C3: `set_exception` latches `has_error_` and completes the future
with the error only if no error was latched before (first writer wins);
once the latch is set, every further task popped for the graph task
skips its `fn` invocation but still decrements `outstanding_tasks_`, so
the queue drains to zero; in the concrete run, node X (1) throws
"boom", the already-queued node Y (2) is dequeued but never invoked,
and the run ends drained with the future holding X's message. -/
theorem error_latch_first_writer :
    (∀ (gt : GraphTask) (msg : String), gt.has_error = true →
      gt.set_exception msg = gt) ∧
    (∀ (gt : GraphTask) (msg : String), gt.has_error = false →
      (gt.set_exception msg).has_error = true ∧
      (gt.future_result = .pending →
        (gt.set_exception msg).future_result = .errored msg) ∧
      (gt.future_result.completedFlag = true →
        (gt.set_exception msg).future_result = gt.future_result)) ∧
    (∀ (g : Graph) (fuel : Nat) (s : LocalState),
      s.gt.has_error = true → s.gt.exit_on_error = false →
      s.gt.outstanding_tasks = s.queue.length →
      (∀ t ∈ s.queue, t.isShutdown = false ∧ t.base.isSome = true) →
      s.queue ≠ [] → s.queue.length ≤ fuel →
      (thread_main g fuel s).queue = [] ∧
      (thread_main g fuel s).invokedLog = s.invokedLog ∧
      (thread_main g fuel s).gt.outstanding_tasks = 0 ∧
      (thread_main g fuel s).gt.future_result.completedFlag = true) ∧
    errRun.invoked = [0, 1] ∧ 2 ∈ errRun.enqueued ∧ 2 ∉ errRun.invoked ∧
    errRun.finalGT.future_result = .errored "boom" ∧
    errRun.finalGT.outstanding_tasks = 0 := by
  exact ⟨set_exception_latched, set_exception_first,
    fun g fuel s => thread_main_drains g fuel s,
    rfl, by decide, by decide, rfl, rfl⟩

/-- Witness for C3: the fixture with the latch set and one queued task
drains in one step without invoking anything. -/
theorem error_latch_first_writer_witness :
    (thread_main errGraph 1 drainFix).queue = [] ∧
    (thread_main errGraph 1 drainFix).invokedLog = [0] ∧
    (thread_main errGraph 1 drainFix).gt.outstanding_tasks = 0 ∧
    (thread_main errGraph 1 drainFix).gt.future_result.completedFlag = true := by
  have h := error_latch_first_writer.2.2.1 errGraph 1 drainFix rfl rfl
    (by decide) (by decide) (by decide) (by decide)
  exact ⟨h.1, h.2.1, h.2.2.1, h.2.2.2⟩

theorem lookupA_setA_ne (k k' : Nat) (v : α) (l : List (Nat × α)) (hne : k ≠ k') :
    lookupA k (setA k' v l) = lookupA k l := by
  induction l with
  | nil => simp [setA, lookupA, Ne.symm hne]
  | cons p rest ih =>
    rcases p with ⟨k'', v''⟩
    by_cases h : k'' = k'
    · subst h
      simp [setA, lookupA, Ne.symm hne]
    · simp [setA, h, lookupA, ih]

theorem countEdges_split (edges : List Edge) (D : List (Nat × Int)) (S P : List Nat) :
    countEdges edges (D, S, P) = (bumpDeps edges D, sweepSeen edges S P) := by
  induction edges generalizing D S P with
  | nil => rfl
  | cons e rest ih =>
    cases hf : e.function with
    | none =>
      simp only [countEdges, List.foldl_cons, hf, bumpDeps, sweepSeen]
      exact ih D S P
    | some f =>
      by_cases hm : f ∈ S
      · simp only [countEdges, List.foldl_cons, hf, bumpDeps, sweepSeen, if_pos hm]
        exact ih _ S P
      · simp only [countEdges, List.foldl_cons, hf, bumpDeps, sweepSeen, if_neg hm]
        exact ih _ _ _

theorem bumpDeps_lookup (n : Nat) :
    ∀ (edges : List Edge) (D : List (Nat × Int)),
      (lookupA n (bumpDeps edges D)).getD 0 =
        (lookupA n D).getD 0 + ((edges.filter fun e => e.function == some n).length : Int) := by
  intro edges
  induction edges with
  | nil => simp [bumpDeps]
  | cons e rest ih =>
    intro D
    cases hf : e.function with
    | none =>
      simp only [bumpDeps, hf]
      rw [ih]
      simp [List.filter_cons, hf]
    | some f =>
      simp only [bumpDeps, hf]
      rw [ih]
      by_cases hfn : f = n
      · subst hfn
        rw [lookupA_setA_self]
        simp [List.filter_cons, hf]
        omega
      · rw [lookupA_setA_ne n f _ _ (Ne.symm hfn)]
        simp [List.filter_cons, hf, hfn]

theorem countInEdges_cons (g : Graph) (m : Nat) (l : List Nat) (n : Nat) :
    countInEdges g (m :: l) n =
      ((g.next_edges m).filter fun e => e.function == some n).length +
        countInEdges g l n := by
  simp [countInEdges]

theorem loop_deps_trace (g : Graph) :
    ∀ (fuel : Nat) (q seen : List Nat) (deps : List (Nat × Int)) (n : Nat),
      (lookupA n (compute_dependencies_loop g fuel q seen deps)).getD 0 =
        (lookupA n deps).getD 0 + (countInEdges g (dfsTrace g fuel q seen).1 n : Int) := by
  intro fuel
  induction fuel with
  | zero =>
    intro q seen deps n
    simp [compute_dependencies_loop, dfsTrace, countInEdges]
  | succ fuel ih =>
    intro q seen deps n
    cases q with
    | nil => simp [compute_dependencies_loop, dfsTrace, countInEdges]
    | cons fn rest =>
      simp only [compute_dependencies_loop, dfsTrace, countEdges_split]
      rw [ih, bumpDeps_lookup, countInEdges_cons]
      push_cast
      ring

theorem sweepSeen_spec :
    ∀ (edges : List Edge) (S P : List Nat),
      ∃ newP : List Nat,
        (sweepSeen edges S P).2 = P ++ newP ∧
        (sweepSeen edges S P).1 = newP.reverse ++ S ∧
        (∀ x ∈ newP, x ∉ S) ∧
        newP.Nodup ∧
        (∀ x ∈ newP, ∃ e ∈ edges, e.function = some x) ∧
        (∀ e ∈ edges, ∀ f, e.function = some f → f ∈ (sweepSeen edges S P).1) := by
  intro edges
  induction edges with
  | nil =>
    intro S P
    exact ⟨[], by simp [sweepSeen], by simp [sweepSeen], by simp, List.nodup_nil,
      by simp, by simp⟩
  | cons e rest ih =>
    intro S P
    cases hf : e.function with
    | none =>
      obtain ⟨newP, h1, h2, h3, h4, h5, h6⟩ := ih S P
      refine ⟨newP, ?_, ?_, h3, h4, ?_, ?_⟩
      · simpa [sweepSeen, hf] using h1
      · simpa [sweepSeen, hf] using h2
      · intro x hx
        obtain ⟨e', he', hfe⟩ := h5 x hx
        exact ⟨e', by simp [he'], hfe⟩
      · intro e' he' f hfe
        rcases List.mem_cons.mp he' with rfl | he''
        · rw [hf] at hfe
          exact absurd hfe (by simp)
        · simpa [sweepSeen, hf] using h6 e' he'' f hfe
    | some f =>
      by_cases hm : f ∈ S
      · obtain ⟨newP, h1, h2, h3, h4, h5, h6⟩ := ih S P
        refine ⟨newP, ?_, ?_, h3, h4, ?_, ?_⟩
        · simpa [sweepSeen, hf, hm] using h1
        · simpa [sweepSeen, hf, hm] using h2
        · intro x hx
          obtain ⟨e', he', hfe⟩ := h5 x hx
          exact ⟨e', by simp [he'], hfe⟩
        · intro e' he' f' hfe
          rcases List.mem_cons.mp he' with rfl | he''
          · rw [hf] at hfe
            injection hfe with hfe
            subst hfe
            have : (sweepSeen (e' :: rest) S P).1 = newP.reverse ++ S := by
              simpa [sweepSeen, hf, hm] using h2
            rw [this]
            simp [hm]
          · simpa [sweepSeen, hf, hm] using h6 e' he'' f' hfe
      · obtain ⟨newP, h1, h2, h3, h4, h5, h6⟩ := ih (f :: S) (P ++ [f])
        refine ⟨f :: newP, ?_, ?_, ?_, ?_, ?_, ?_⟩
        · have : (sweepSeen (e :: rest) S P).2 = (P ++ [f]) ++ newP := by
            simpa [sweepSeen, hf, hm] using h1
          rw [this]
          simp
        · have : (sweepSeen (e :: rest) S P).1 = newP.reverse ++ (f :: S) := by
            simpa [sweepSeen, hf, hm] using h2
          rw [this]
          simp
        · intro x hx
          rcases List.mem_cons.mp hx with rfl | hx'
          · exact hm
          · intro hxS
            exact h3 x hx' (by simp [hxS])
        · refine List.nodup_cons.mpr ⟨?_, h4⟩
          intro hf_in
          exact h3 f hf_in (by simp)
        · intro x hx
          rcases List.mem_cons.mp hx with rfl | hx'
          · exact ⟨e, by simp, hf⟩
          · obtain ⟨e', he', hfe⟩ := h5 x hx'
            exact ⟨e', by simp [he'], hfe⟩
        · intro e' he' f' hfe
          have hS1 : (sweepSeen (e :: rest) S P).1 = newP.reverse ++ (f :: S) := by
            simpa [sweepSeen, hf, hm] using h2
          rcases List.mem_cons.mp he' with rfl | he''
          · rw [hf] at hfe
            injection hfe with hfe
            subst hfe
            rw [hS1]
            simp
          · have := h6 e' he'' f' hfe
            have h2' : (sweepSeen rest (f :: S) (P ++ [f])).1 = newP.reverse ++ (f :: S) := h2
            rw [h2'] at this
            rw [hS1]
            exact this

theorem dfsTrace_queue (g : Graph) :
    ∀ (fuel : Nat) (q seen : List Nat) (p : Nat), p ∈ q →
      p ∈ (dfsTrace g fuel q seen).1 ∨ p ∈ (dfsTrace g fuel q seen).2.1 := by
  intro fuel
  induction fuel with
  | zero =>
    intro q seen p hp
    right
    simpa [dfsTrace] using hp
  | succ fuel ih =>
    intro q seen p hp
    cases q with
    | nil => simp at hp
    | cons fn rest =>
      simp only [dfsTrace]
      rcases List.mem_cons.mp hp with rfl | hp'
      · left
        simp
      · have hmem : p ∈ (sweepSeen (g.next_edges fn) seen []).2.reverse ++ rest := by
          simp [hp']
        rcases ih ((sweepSeen (g.next_edges fn) seen []).2.reverse ++ rest)
            (sweepSeen (g.next_edges fn) seen []).1 p hmem with h | h
        · left
          simp [h]
        · right
          exact h

theorem dfsTrace_mem_src (g : Graph) :
    ∀ (fuel : Nat) (q seen : List Nat) (p : Nat),
      p ∈ (dfsTrace g fuel q seen).1 →
      p ∈ q ∨ ∃ m e, e ∈ g.next_edges m ∧ e.function = some p := by
  intro fuel
  induction fuel with
  | zero =>
    intro q seen p hp
    simp [dfsTrace] at hp
  | succ fuel ih =>
    intro q seen p hp
    cases q with
    | nil => simp [dfsTrace] at hp
    | cons fn rest =>
      simp only [dfsTrace, List.mem_cons] at hp
      rcases hp with rfl | hp'
      · exact Or.inl (by simp)
      · rcases ih _ _ p hp' with hq | hsucc
        · obtain ⟨newP, h1, h2, h3, h4, h5, h6⟩ := sweepSeen_spec (g.next_edges fn) seen []
          rw [h1] at hq
          simp only [List.nil_append, List.mem_append, List.mem_reverse] at hq
          rcases hq with hnp | hrest
          · obtain ⟨e, he, hfe⟩ := h5 p hnp
            exact Or.inr ⟨fn, e, he, hfe⟩
          · exact Or.inl (by simp [hrest])
        · exact Or.inr hsucc

theorem dfsTrace_mem_not_seen (g : Graph) :
    ∀ (fuel : Nat) (q seen : List Nat) (p : Nat),
      p ∈ (dfsTrace g fuel q seen).1 → p ∈ q ∨ p ∉ seen := by
  intro fuel
  induction fuel with
  | zero =>
    intro q seen p hp
    simp [dfsTrace] at hp
  | succ fuel ih =>
    intro q seen p hp
    cases q with
    | nil => simp [dfsTrace] at hp
    | cons fn rest =>
      simp only [dfsTrace, List.mem_cons] at hp
      rcases hp with rfl | hp'
      · exact Or.inl (by simp)
      · obtain ⟨newP, h1, h2, h3, h4, h5, h6⟩ := sweepSeen_spec (g.next_edges fn) seen []
        rcases ih _ _ p hp' with hq | hns
        · rw [h1] at hq
          simp only [List.nil_append, List.mem_append, List.mem_reverse] at hq
          rcases hq with hnp | hrest
          · exact Or.inr (h3 p hnp)
          · exact Or.inl (by simp [hrest])
        · rw [h2] at hns
          refine Or.inr fun hpS => hns ?_
          simp [hpS]

theorem dfsTrace_seen_mono (g : Graph) :
    ∀ (fuel : Nat) (q seen : List Nat) (x : Nat), x ∈ seen →
      x ∈ (dfsTrace g fuel q seen).2.2 := by
  intro fuel
  induction fuel with
  | zero =>
    intro q seen x hx
    simpa [dfsTrace] using hx
  | succ fuel ih =>
    intro q seen x hx
    cases q with
    | nil => simpa [dfsTrace] using hx
    | cons fn rest =>
      simp only [dfsTrace]
      obtain ⟨newP, h1, h2, h3, h4, h5, h6⟩ := sweepSeen_spec (g.next_edges fn) seen []
      exact ih _ _ x (by rw [h2]; simp [hx])

theorem dfsTrace_nodup (g : Graph) (root : Nat) (hroot : g.NoInEdges root) :
    ∀ (fuel : Nat) (q seen : List Nat), q.Nodup →
      (∀ x ∈ q, x ∈ seen ∨ x = root) → root ∉ seen →
      (dfsTrace g fuel q seen).1.Nodup := by
  intro fuel
  induction fuel with
  | zero =>
    intro q seen _ _ _
    simp [dfsTrace]
  | succ fuel ih =>
    intro q seen hq hmem hrs
    cases q with
    | nil => simp [dfsTrace]
    | cons fn rest =>
      obtain ⟨newP, h1, h2, h3, h4, h5, h6⟩ := sweepSeen_spec (g.next_edges fn) seen []
      have hrestnd : rest.Nodup := (List.nodup_cons.mp hq).2
      have hfnrest : fn ∉ rest := (List.nodup_cons.mp hq).1
      have hrootP : root ∉ newP := by
        intro hin
        obtain ⟨e, he, hfe⟩ := h5 root hin
        exact hroot fn e he hfe
      have hQ' : ((sweepSeen (g.next_edges fn) seen []).2.reverse ++ rest).Nodup := by
        rw [h1]
        simp only [List.nil_append]
        refine List.Nodup.append (List.nodup_reverse.mpr h4) hrestnd ?_
        intro x hx hxr
        have hxn : x ∈ newP := by simpa using hx
        rcases hmem x (by simp [hxr]) with hxS | rfl
        · exact h3 x hxn hxS
        · exact hrootP hxn
      have hmem' : ∀ x ∈ (sweepSeen (g.next_edges fn) seen []).2.reverse ++ rest,
          x ∈ (sweepSeen (g.next_edges fn) seen []).1 ∨ x = root := by
        intro x hx
        rw [h1] at hx
        rw [h2]
        simp only [List.nil_append, List.mem_append, List.mem_reverse] at hx ⊢
        rcases hx with hxn | hxr
        · exact Or.inl (Or.inl hxn)
        · rcases hmem x (by simp [hxr]) with hxS | rfl
          · exact Or.inl (Or.inr hxS)
          · exact Or.inr rfl
      have hrs' : root ∉ (sweepSeen (g.next_edges fn) seen []).1 := by
        rw [h2]
        simp only [List.mem_append, List.mem_reverse]
        rintro (h | h)
        · exact hrootP h
        · exact hrs h
      have htail := ih _ _ hQ' hmem' hrs'
      simp only [dfsTrace]
      refine List.nodup_cons.mpr ⟨?_, htail⟩
      intro hin
      rcases hmem fn (by simp) with hfnS | hfnroot
      · rcases dfsTrace_mem_not_seen g fuel _ _ fn hin with hq' | hns
        · rw [h1] at hq'
          simp only [List.nil_append, List.mem_append, List.mem_reverse] at hq'
          rcases hq' with h | h
          · exact h3 fn h hfnS
          · exact hfnrest h
        · exact hns (by rw [h2]; simp [hfnS])
      · rcases dfsTrace_mem_src g fuel _ _ fn hin with hq' | ⟨m, e, he, hfe⟩
        · rw [h1] at hq'
          simp only [List.nil_append, List.mem_append, List.mem_reverse] at hq'
          rcases hq' with h | h
          · exact hrootP (hfnroot ▸ h)
          · exact hfnrest h
        · exact hroot m e he (hfnroot ▸ hfe)

theorem dfsTrace_closure (g : Graph) :
    ∀ (fuel : Nat) (q seen : List Nat) (p : Nat),
      p ∈ (dfsTrace g fuel q seen).1 →
      ∀ e ∈ g.next_edges p, ∀ f, e.function = some f →
        f ∈ (dfsTrace g fuel q seen).2.2 := by
  intro fuel
  induction fuel with
  | zero =>
    intro q seen p hp
    simp [dfsTrace] at hp
  | succ fuel ih =>
    intro q seen p hp e he f hfe
    cases q with
    | nil => simp [dfsTrace] at hp
    | cons fn rest =>
      obtain ⟨newP, h1, h2, h3, h4, h5, h6⟩ := sweepSeen_spec (g.next_edges fn) seen []
      simp only [dfsTrace, List.mem_cons] at hp ⊢
      rcases hp with rfl | hp'
      · exact dfsTrace_seen_mono g fuel _ _ f (h6 e he f hfe)
      · exact ih _ _ p hp' e he f hfe

theorem dfsTrace_seen_src (g : Graph) :
    ∀ (fuel : Nat) (q seen : List Nat) (x : Nat),
      x ∈ (dfsTrace g fuel q seen).2.2 →
      x ∈ seen ∨ x ∈ (dfsTrace g fuel q seen).1 ∨ x ∈ (dfsTrace g fuel q seen).2.1 := by
  intro fuel
  induction fuel with
  | zero =>
    intro q seen x hx
    exact Or.inl (by simpa [dfsTrace] using hx)
  | succ fuel ih =>
    intro q seen x hx
    cases q with
    | nil => exact Or.inl (by simpa [dfsTrace] using hx)
    | cons fn rest =>
      obtain ⟨newP, h1, h2, h3, h4, h5, h6⟩ := sweepSeen_spec (g.next_edges fn) seen []
      simp only [dfsTrace] at hx ⊢
      rcases ih _ _ x hx with hS' | h | h
      · rw [h2] at hS'
        simp only [List.mem_append, List.mem_reverse] at hS'
        rcases hS' with hxn | hxS
        · have hxq : x ∈ (sweepSeen (g.next_edges fn) seen []).2.reverse ++ rest := by
            rw [h1]
            simp [hxn]
          rcases dfsTrace_queue g fuel ((sweepSeen (g.next_edges fn) seen []).2.reverse ++ rest)
              (sweepSeen (g.next_edges fn) seen []).1 x hxq with h | h
          · exact Or.inr (Or.inl (by simp [h]))
          · exact Or.inr (Or.inr h)
        · exact Or.inl hxS
      · exact Or.inr (Or.inl (by simp [h]))
      · exact Or.inr (Or.inr h)

theorem nodup_bounded_length (l : List Nat) (n : Nat) (hnd : l.Nodup)
    (hb : ∀ x ∈ l, x < n) : l.length ≤ n := by
  have hsub : l ⊆ List.range n := fun x hx => List.mem_range.mpr (hb x hx)
  simpa using (List.subperm_of_subset hnd hsub).length_le

theorem dfsTrace_terminates (g : Graph) (hclosed : g.Closed) :
    ∀ (fuel : Nat) (q seen : List Nat), seen.Nodup →
      (∀ s ∈ seen, s < g.numNodes) →
      q.length + (g.numNodes - seen.length) ≤ fuel →
      (dfsTrace g fuel q seen).2.1 = [] := by
  intro fuel
  induction fuel with
  | zero =>
    intro q seen _ _ hlen
    cases q with
    | nil => simp [dfsTrace]
    | cons a l =>
      simp [List.length_cons] at hlen
  | succ fuel ih =>
    intro q seen hnd hb hlen
    cases q with
    | nil => simp [dfsTrace]
    | cons fn rest =>
      obtain ⟨newP, h1, h2, h3, h4, h5, h6⟩ := sweepSeen_spec (g.next_edges fn) seen []
      have hS'nd : ((sweepSeen (g.next_edges fn) seen []).1).Nodup := by
        rw [h2]
        exact List.Nodup.append (List.nodup_reverse.mpr h4) hnd
          (fun x hx hxS => h3 x (by simpa using hx) hxS)
      have hS'b : ∀ s ∈ (sweepSeen (g.next_edges fn) seen []).1, s < g.numNodes := by
        rw [h2]
        intro s hs
        simp only [List.mem_append, List.mem_reverse] at hs
        rcases hs with hsn | hsS
        · obtain ⟨e, he, hfe⟩ := h5 s hsn
          exact hclosed fn e s he hfe
        · exact hb s hsS
      have hS'len : newP.length + seen.length ≤ g.numNodes := by
        have hle := nodup_bounded_length _ _ hS'nd hS'b
        rw [h2] at hle
        simpa [List.length_append, List.length_reverse] using hle
      have hlen' : ((sweepSeen (g.next_edges fn) seen []).2.reverse ++ rest).length +
          (g.numNodes - (sweepSeen (g.next_edges fn) seen []).1.length) ≤ fuel := by
        rw [h1, h2]
        simp only [List.nil_append, List.length_append, List.length_reverse,
          List.length_cons] at hlen ⊢
        omega
      simp only [dfsTrace]
      exact ih _ _ hS'nd hS'b hlen'

theorem dfsTrace_reaches (g : Graph) (root : Nat) :
    ∀ (fuel : Nat) (q seen : List Nat),
      (∀ x ∈ q, Reaches g root x) →
      ∀ p ∈ (dfsTrace g fuel q seen).1, Reaches g root p := by
  intro fuel
  induction fuel with
  | zero =>
    intro q seen _ p hp
    simp [dfsTrace] at hp
  | succ fuel ih =>
    intro q seen hq p hp
    cases q with
    | nil => simp [dfsTrace] at hp
    | cons fn rest =>
      obtain ⟨newP, h1, h2, h3, h4, h5, h6⟩ := sweepSeen_spec (g.next_edges fn) seen []
      simp only [dfsTrace, List.mem_cons] at hp
      rcases hp with rfl | hp'
      · exact hq p (by simp)
      · refine ih _ _ ?_ p hp'
        intro x hx
        rw [h1] at hx
        simp only [List.nil_append, List.mem_append, List.mem_reverse] at hx
        rcases hx with hxn | hxr
        · obtain ⟨e, he, hfe⟩ := h5 x hxn
          exact Reaches.step (hq fn (by simp)) e he hfe
        · exact hq x (by simp [hxr])

theorem compute_dependencies_correct (g : Graph) (root : Nat)
    (hclosed : g.Closed) (hroot : g.NoInEdges root) :
    (∀ n, (lookupA n (compute_dependencies g root)).getD 0 =
      (countInEdges g (dependencyScope g root) n : Int)) ∧
    (dependencyScope g root).Nodup ∧
    (∀ p, p ∈ dependencyScope g root ↔ Reaches g root p) := by
  refine ⟨?_, ?_, ?_⟩
  · intro n
    have h := loop_deps_trace g (g.numNodes + 1) [root] [] [] n
    simpa [compute_dependencies, dependencyScope, lookupA] using h
  · exact dfsTrace_nodup g root hroot (g.numNodes + 1) [root] []
      (by simp) (by simp) (by simp)
  · intro p
    constructor
    · intro hp
      refine dfsTrace_reaches g root (g.numNodes + 1) [root] [] ?_ p hp
      intro x hx
      rw [List.mem_singleton] at hx
      subst hx
      exact Reaches.refl
    · intro hr
      induction hr with
      | refl =>
        simp [dependencyScope, dfsTrace]
      | step hm e he hf ihm =>
        rename_i m n
        have hseen := dfsTrace_closure g (g.numNodes + 1) [root] [] m ihm e he n hf
        have hterm := dfsTrace_terminates g hclosed (g.numNodes + 1) [root] []
          (by simp) (by simp) (by simp; omega)
        rcases dfsTrace_seen_src g (g.numNodes + 1) [root] [] n hseen with h0 | h1 | h2
        · simp at h0
        · exact h1
        · rw [hterm] at h2
          simp at h2

/-- C2: for every graph whose edges stay in range and whose root has no
incoming edge (the synthetic `GraphRoot`), `compute_dependencies`
assigns every node exactly its number of incoming edges from the nodes
the DFS visits, a duplicate-free set that coincides with the nodes
reachable from the root; the per-edge dispatch step of
`evaluate_function` decrements the successor's count by exactly one and
pushes the successor exactly when the count reaches zero, erasing its
entry at that moment; and in the concrete diamond run every reachable
node is enqueued exactly once. -/
theorem dependency_counting :
    (∀ (g : Graph) (root : Nat), g.Closed → g.NoInEdges root →
      (∀ n, (lookupA n (compute_dependencies g root)).getD 0 =
        (countInEdges g (dependencyScope g root) n : Int)) ∧
      (dependencyScope g root).Nodup ∧
      (∀ p, p ∈ dependencyScope g root ↔ Reaches g root p)) ∧
    (∀ (g : Graph) (gt : GraphTask) (fnId i : Nat) (out : Tensor) (nextFn : Nat)
        (cnt : Int),
      gt.exec_info = [] →
      ((g.next_edges fnId).getD i ⟨none, 0⟩).function = some nextFn →
      lookupA nextFn gt.dependencies = some cnt →
      (gt.dependencies.map Prod.fst).Nodup →
      ∃ gt' topt, processOutput g gt fnId i out = .ok (gt', topt) ∧
        lookupA nextFn gt'.dependencies = (if cnt = 1 then none else some (cnt - 1)) ∧
        (topt.isSome = true ↔ cnt = 1)) ∧
    diamondRun.enqueued = [0, 1, 2, 3, 4] ∧
    diamondRun.enqueued.Nodup ∧
    (∀ n ∈ reachableFrom diamondGraph 0, diamondRun.enqueued.count n = 1) ∧
    diamondRun.finalDeps = [] := by
  exact ⟨compute_dependencies_correct, processOutput_dependency, rfl, by decide,
    by decide, rfl⟩

/-- Witness for C2: on the diamond graph the dependency map gives node
D (4) its in-degree over the visited (reachable) set, and dispatching
node B's single output decrements node D's count from 1 to 0, erasing
the entry and readying a node task. -/
theorem dependency_counting_witness :
    (∃ gt' topt, processOutput diamondGraph gtDepFix 2 0 (mkT 1) = .ok (gt', topt) ∧
      lookupA 4 gt'.dependencies = (if (1 : Int) = 1 then none else some 0) ∧
      (topt.isSome = true ↔ (1 : Int) = 1)) ∧
    (lookupA 4 (compute_dependencies diamondGraph 0)).getD 0 =
      (countInEdges diamondGraph (dependencyScope diamondGraph 0) 4 : Int) ∧
    (dependencyScope diamondGraph 0).Nodup := by
  refine ⟨dependency_counting.2.1 diamondGraph gtDepFix 2 0 (mkT 1) 4 1 rfl rfl rfl
      (by decide),
    (dependency_counting.1 diamondGraph 0 diamondGraph_closed diamondGraph_noInEdges).1 4,
    (dependency_counting.1 diamondGraph 0 diamondGraph_closed diamondGraph_noInEdges).2.1⟩

theorem find_next_fn_none :
    ∀ (l : List Edge) (k : Nat), find_next_fn l k = none →
      ∀ e ∈ l, e.function = none := by
  intro l
  induction l with
  | nil =>
    intro k _ e he
    simp at he
  | cons e0 rest ih =>
    intro k h e he
    cases hf : e0.function with
    | some f => simp [find_next_fn, hf] at h
    | none =>
      simp only [find_next_fn, hf] at h
      rcases List.mem_cons.mp he with rfl | he'
      · exact hf
      · exact ih (k + 1) h e he'

theorem find_next_fn_some :
    ∀ (l : List Edge) (k f k' : Nat), find_next_fn l k = some (f, k') →
      k < k' ∧ k' - k ≤ l.length ∧
      (∀ e ∈ l.take (k' - k), e.function = none ∨ e.function = some f) ∧
      (∃ e ∈ l, e.function = some f) := by
  intro l
  induction l with
  | nil =>
    intro k f k' h
    simp [find_next_fn] at h
  | cons e0 rest ih =>
    intro k f k' h
    cases hf : e0.function with
    | some f0 =>
      simp only [find_next_fn, hf, Option.some.injEq, Prod.mk.injEq] at h
      obtain ⟨rfl, rfl⟩ := h
      refine ⟨by omega, by simp, ?_, ⟨e0, by simp, hf⟩⟩
      intro e he
      have : k + 1 - k = 1 := by omega
      rw [this] at he
      simp only [List.take_succ_cons, List.take_zero, List.mem_singleton] at he
      subst he
      exact Or.inr hf
    | none =>
      simp only [find_next_fn, hf] at h
      obtain ⟨ha, hb, hc, hd⟩ := ih (k + 1) f k' h
      refine ⟨by omega, by simp; omega, ?_, ?_⟩
      · intro e he
        have hkk : k' - k = (k' - (k + 1)) + 1 := by omega
        rw [hkk, List.take_succ_cons] at he
        rcases List.mem_cons.mp he with rfl | he'
        · exact Or.inl hf
        · exact hc e he'
      · obtain ⟨e, he, hfe⟩ := hd
        exact ⟨e, by simp [he], hfe⟩

theorem get_next_fn_none (g : Graph) (fn k : Nat)
    (h : get_next_fn g fn k = none) :
    ∀ e ∈ (g.next_edges fn).drop k, e.function = none :=
  find_next_fn_none _ k h

theorem get_next_fn_some (g : Graph) (fn k f k' : Nat)
    (h : get_next_fn g fn k = some (f, k')) :
    k < k' ∧ k' ≤ (g.next_edges fn).length ∧
    (∀ e ∈ ((g.next_edges fn).drop k).take (k' - k),
      e.function = none ∨ e.function = some f) ∧
    (∃ e ∈ g.next_edges fn, e.function = some f) := by
  obtain ⟨ha, hb, hc, hd⟩ := find_next_fn_some _ k f k' h
  refine ⟨ha, ?_, hc, ?_⟩
  · rw [List.length_drop] at hb
    omega
  · obtain ⟨e, he, hfe⟩ := hd
    exact ⟨e, List.mem_of_mem_drop he, hfe⟩

theorem frameScanned_none_all (g : Graph) (seen : List Nat) (fn k : Nat)
    (hscan : FrameScanned g seen ⟨fn, k⟩)
    (hnone : get_next_fn g fn k = none) :
    ∀ e ∈ g.next_edges fn, ∀ f, e.function = some f → f ∈ seen := by
  intro e he f hf
  have he' : e ∈ (g.next_edges fn).take k ++ (g.next_edges fn).drop k := by
    rw [List.take_append_drop]
    exact he
  rcases List.mem_append.mp he' with h1 | h2
  · exact hscan e h1 f hf
  · rw [get_next_fn_none g fn k hnone e h2] at hf
    exact absurd hf (by simp)

theorem frameScanned_step (g : Graph) (seen seen' : List Nat) (fn k f k' : Nat)
    (hscan : FrameScanned g seen ⟨fn, k⟩)
    (hsome : get_next_fn g fn k = some (f, k'))
    (hsub : ∀ x ∈ seen, x ∈ seen') (hfmem : f ∈ seen') :
    FrameScanned g seen' ⟨fn, k'⟩ := by
  obtain ⟨ha, hb, hc, hd⟩ := get_next_fn_some g fn k f k' hsome
  intro e he f' hf'
  have hsplit : (g.next_edges fn).take k' =
      (g.next_edges fn).take k ++ ((g.next_edges fn).drop k).take (k' - k) := by
    conv_lhs => rw [show k' = k + (k' - k) by omega]
    rw [List.take_add]
  rw [hsplit] at he
  rcases List.mem_append.mp he with h1 | h2
  · exact hsub _ (hscan e h1 f' hf')
  · rcases hc e h2 with hn | hs
    · rw [hn] at hf'
      exact absurd hf' (by simp)
    · rw [hs] at hf'
      injection hf' with hh
      subst hh
      exact hfmem

theorem getEI_setNeeded_self (m : List (Nat × ExecInfo)) (k : Nat) (b : Bool) :
    getEI (setNeeded m k b) k = { getEI m k with needed := b } := by
  simp [getEI, setNeeded, lookupA_setA_self]

theorem lookupA_setNeeded_ne (m : List (Nat × ExecInfo)) (k k' : Nat) (b : Bool)
    (h : k ≠ k') : lookupA k (setNeeded m k' b) = lookupA k m := by
  simp [setNeeded, lookupA_setA_ne _ _ _ _ h]

theorem capsOf_setNeeded (m : List (Nat × ExecInfo)) (k k' : Nat) (b : Bool) :
    capsOf (setNeeded m k' b) k = capsOf m k := by
  by_cases h : k = k'
  · subst h
    simp [capsOf, getEI_setNeeded_self]
  · simp [capsOf, getEI, lookupA_setNeeded_ne m k k' b h]

theorem lookupA_setNeeded_self_isSome (m : List (Nat × ExecInfo)) (k : Nat) (b : Bool) :
    (lookupA k (setNeeded m k b)).isSome = true := by
  simp [setNeeded, lookupA_setA_self]

theorem lookupA_setNeeded_isSome (m : List (Nat × ExecInfo)) (k k' : Nat) (b : Bool)
    (h : (lookupA k m).isSome = true) :
    (lookupA k (setNeeded m k' b)).isSome = true := by
  by_cases hk : k = k'
  · subst hk
    exact lookupA_setNeeded_self_isSome m k b
  · rw [lookupA_setNeeded_ne m k k' b hk]
    exact h

theorem applyPops_append (g : Graph) :
    ∀ (t1 t2 : List Nat) (ei : List (Nat × ExecInfo)),
      applyPops g (t1 ++ t2) ei = applyPops g t2 (applyPops g t1 ei) := by
  intro t1
  induction t1 with
  | nil => intro t2 ei; rfl
  | cons n rest ih =>
    intro t2 ei
    simp only [List.cons_append, applyPops]
    exact ih t2 _

theorem capsOf_applyPops (g : Graph) :
    ∀ (t : List Nat) (ei : List (Nat × ExecInfo)) (k : Nat),
      capsOf (applyPops g t ei) k = capsOf ei k := by
  intro t
  induction t with
  | nil => intro ei k; rfl
  | cons n rest ih =>
    intro ei k
    simp only [applyPops]
    rw [ih, capsOf_setNeeded]

theorem lookupA_applyPops_not_mem (g : Graph) :
    ∀ (t : List Nat) (ei : List (Nat × ExecInfo)) (k : Nat), k ∉ t →
      lookupA k (applyPops g t ei) = lookupA k ei := by
  intro t
  induction t with
  | nil => intro ei k _; rfl
  | cons n rest ih =>
    intro ei k hk
    simp only [applyPops]
    rw [ih _ _ (by intro h; exact hk (by simp [h])),
      lookupA_setNeeded_ne _ _ _ _ (by intro h; exact hk (by simp [h]))]

theorem dfs_loop_eq_applyPops (g : Graph) :
    ∀ (fuel : Nat) (stack : List Frame) (seen : List Nat) (ei : List (Nat × ExecInfo)),
      dfs_loop g fuel stack seen ei =
        (applyPops g (dfs2 g fuel stack seen).1 ei, (dfs2 g fuel stack seen).2.1) := by
  intro fuel
  induction fuel with
  | zero =>
    intro stack seen ei
    simp [dfs_loop, dfs2, applyPops]
  | succ fuel ih =>
    intro stack seen ei
    cases stack with
    | nil => simp [dfs_loop, dfs2, applyPops]
    | cons frame rest =>
      cases hg : get_next_fn g frame.fn frame.next_next_fn with
      | some pk =>
        rcases pk with ⟨next_fn, k'⟩
        simp only [dfs_loop, dfs2, hg]
        by_cases hm : next_fn ∈ seen
        · simp only [if_pos hm]
          exact ih _ _ _
        · simp only [if_neg hm]
          exact ih _ _ _
      | none =>
        simp only [dfs_loop, dfs2, hg]
        rw [ih]
        simp [applyPops]

theorem init_dfs_eq_applyPops (g : Graph) :
    ∀ (edges : List Edge) (ei : List (Nat × ExecInfo)) (seen : List Nat),
      init_to_execute_dfs g edges ei seen =
        applyPops g (initPops g edges seen).1 ei := by
  intro edges
  induction edges with
  | nil => intro ei seen; rfl
  | cons input rest ih =>
    intro ei seen
    cases hf : input.function with
    | none =>
      simp only [init_to_execute_dfs, initPops, hf]
      exact ih ei seen
    | some f =>
      simp only [init_to_execute_dfs, initPops, hf]
      by_cases hm : f ∈ seen
      · simp only [if_pos hm]
        exact ih ei seen
      · simp only [if_neg hm]
        rw [dfs_loop_eq_applyPops]
        rw [ih, applyPops_append]

theorem le_foldl_max (f : Nat → Nat) :
    ∀ (l : List Nat) (a : Nat),
      a ≤ l.foldl (fun acc x => max acc (f x)) a ∧
      ∀ n ∈ l, f n ≤ l.foldl (fun acc x => max acc (f x)) a := by
  intro l
  induction l with
  | nil =>
    intro a
    exact ⟨le_refl _, by simp⟩
  | cons x rest ih =>
    intro a
    constructor
    · exact le_trans (le_max_left a (f x)) (ih (max a (f x))).1
    · intro n hn
      rcases List.mem_cons.mp hn with rfl | hn'
      · exact le_trans (le_max_right a (f n)) (ih (max a (f n))).1
      · exact (ih (max a (f x))).2 n hn'

theorem deg_le_maxDeg (g : Graph) (n : Nat) (h : n < g.numNodes) :
    (g.next_edges n).length ≤ maxDeg g := by
  have hfold := (le_foldl_max (fun m => (g.next_edges m).length)
    (List.range g.numNodes) 0).2 n (List.mem_range.mpr h)
  exact hfold

theorem dfs2_stack_empty (g : Graph) (hclosed : g.Closed) :
    ∀ (fuel : Nat) (stack : List Frame) (seen : List Nat),
      seen.Nodup → (∀ s ∈ seen, s < g.numNodes) →
      (∀ fr ∈ stack, fr.fn < g.numNodes) →
      (∀ fr ∈ stack, fr.next_next_fn ≤ (g.next_edges fr.fn).length) →
      stackMeasure g stack seen ≤ fuel →
      (dfs2 g fuel stack seen).2.2 = [] := by
  intro fuel
  induction fuel with
  | zero =>
    intro stack seen _ _ _ hk hme
    cases stack with
    | nil => simp [dfs2]
    | cons frame rest =>
      exfalso
      have hk1 := hk frame (by simp)
      simp only [stackMeasure, List.map_cons, List.sum_cons, frameSlack] at hme
      omega
  | succ fuel ih =>
    intro stack seen hnd hb hfns hk hme
    cases stack with
    | nil => simp [dfs2]
    | cons frame rest =>
      cases hg : get_next_fn g frame.fn frame.next_next_fn with
      | some pk =>
        rcases pk with ⟨next_fn, k'⟩
        obtain ⟨ha, hbk, hc, hd⟩ := get_next_fn_some g frame.fn frame.next_next_fn
          next_fn k' hg
        have hfn_lt : next_fn < g.numNodes := by
          obtain ⟨e, he, hfe⟩ := hd
          exact hclosed frame.fn e next_fn he hfe
        simp only [dfs2, hg]
        by_cases hm : next_fn ∈ seen
        · simp only [if_pos hm]
          refine ih _ _ hnd hb ?_ ?_ ?_
          · intro fr hfr
            rcases List.mem_cons.mp hfr with rfl | hfr'
            · exact hfns frame (by simp)
            · exact hfns fr (by simp [hfr'])
          · intro fr hfr
            rcases List.mem_cons.mp hfr with rfl | hfr'
            · exact hbk
            · exact hk fr (by simp [hfr'])
          · simp only [stackMeasure, List.map_cons, List.sum_cons, frameSlack] at hme ⊢
            omega
        · simp only [if_neg hm]
          have hnd' : (next_fn :: seen).Nodup := List.nodup_cons.mpr ⟨hm, hnd⟩
          have hb' : ∀ s ∈ next_fn :: seen, s < g.numNodes := by
            intro s hs
            rcases List.mem_cons.mp hs with rfl | hs'
            · exact hfn_lt
            · exact hb s hs'
          have hslen : (next_fn :: seen).length ≤ g.numNodes :=
            nodup_bounded_length _ _ hnd' hb'
          refine ih _ _ hnd' hb' ?_ ?_ ?_
          · intro fr hfr
            rcases List.mem_cons.mp hfr with rfl | hfr'
            · exact hfn_lt
            · rcases List.mem_cons.mp hfr' with rfl | hfr''
              · exact hfns frame (by simp)
              · exact hfns fr (by simp [hfr''])
          · intro fr hfr
            rcases List.mem_cons.mp hfr with rfl | hfr'
            · simp
            · rcases List.mem_cons.mp hfr' with rfl | hfr''
              · exact hbk
              · exact hk fr (by simp [hfr''])
          · have hdeg : (g.next_edges next_fn).length ≤ maxDeg g :=
              deg_le_maxDeg g next_fn hfn_lt
            have hsplit : (g.numNodes - seen.length) * (maxDeg g + 2) =
                (g.numNodes - seen.length - 1) * (maxDeg g + 2) + (maxDeg g + 2) := by
              have hlt : seen.length < g.numNodes := by
                simp only [List.length_cons] at hslen
                omega
              set x := g.numNodes - seen.length - 1 with hx
              have hx1 : g.numNodes - seen.length = x + 1 := by omega
              rw [hx1]
              ring
            simp only [stackMeasure, List.map_cons, List.sum_cons, frameSlack,
              List.length_cons] at hme ⊢
            rw [hsplit] at hme
            have hstep : g.numNodes - (seen.length + 1) = g.numNodes - seen.length - 1 := by
              omega
            rw [hstep]
            omega
      | none =>
        simp only [dfs2, hg]
        have hres := ih rest seen hnd hb
          (fun fr hfr => hfns fr (by simp [hfr]))
          (fun fr hfr => hk fr (by simp [hfr]))
          (by
            simp only [stackMeasure, List.map_cons, List.sum_cons, frameSlack] at hme ⊢
            have hk1 := hk frame (by simp)
            omega)
        simpa using hres

theorem frameScanned_mono (g : Graph) (s s' : List Nat) (fr : Frame)
    (hsub : ∀ x ∈ s, x ∈ s') (h : FrameScanned g s fr) : FrameScanned g s' fr :=
  fun e he f hf => hsub _ (h e he f hf)

theorem popsOK_mono (g : Graph) :
    ∀ (t p p' : List Nat), (∀ x ∈ p, x ∈ p') → PopsOK g t p → PopsOK g t p' := by
  intro t
  induction t with
  | nil => intro p p' _ _; trivial
  | cons n rest ih =>
    intro p p' hsub h
    exact ⟨fun e he f hf => hsub f (h.1 e he f hf),
      ih (n :: p) (n :: p')
        (fun x hx => by
          rcases List.mem_cons.mp hx with rfl | hx'
          · simp
          · simp [hsub x hx'])
        h.2⟩

theorem dfs2_invariants (g : Graph) (rank : Nat → Nat) (hrank : RankedGraph g rank) :
    ∀ (fuel : Nat) (stack : List Frame) (seen popped : List Nat),
      (∀ fr ∈ stack, FrameScanned g seen fr) →
      (∀ x ∈ seen, x ∈ popped ∨ ∃ fr ∈ stack, fr.fn = x) →
      StackRanked rank stack →
      PopsOK g (dfs2 g fuel stack seen).1 popped ∧
      (∀ x ∈ seen, x ∈ (dfs2 g fuel stack seen).2.1) ∧
      (∀ x ∈ (dfs2 g fuel stack seen).2.1,
        x ∈ popped ∨ x ∈ (dfs2 g fuel stack seen).1 ∨
        ∃ fr ∈ (dfs2 g fuel stack seen).2.2, fr.fn = x) ∧
      (∀ fr ∈ stack, fr.fn ∈ (dfs2 g fuel stack seen).1 ∨
        ∃ fr' ∈ (dfs2 g fuel stack seen).2.2, fr'.fn = fr.fn) := by
  intro fuel
  induction fuel with
  | zero =>
    intro stack seen popped hscan hsrc hranked
    refine ⟨trivial, by simp [dfs2], ?_, ?_⟩
    · intro x hx
      rcases hsrc x (by simpa [dfs2] using hx) with h | h
      · exact Or.inl h
      · exact Or.inr (Or.inr (by simpa [dfs2] using h))
    · intro fr hfr
      exact Or.inr ⟨fr, by simpa [dfs2] using hfr, rfl⟩
  | succ fuel ih =>
    intro stack seen popped hscan hsrc hranked
    cases stack with
    | nil =>
      refine ⟨trivial, by simp [dfs2], ?_, by simp⟩
      intro x hx
      rcases hsrc x (by simpa [dfs2] using hx) with h | ⟨fr, hfr, _⟩
      · exact Or.inl h
      · simp at hfr
    | cons frame rest =>
      cases hg : get_next_fn g frame.fn frame.next_next_fn with
      | some pk =>
        rcases pk with ⟨next_fn, k'⟩
        obtain ⟨ha, hbk, hc, hd⟩ := get_next_fn_some g frame.fn frame.next_next_fn
          next_fn k' hg
        have hpair := (List.pairwise_cons.mp hranked)
        simp only [dfs2, hg]
        by_cases hm : next_fn ∈ seen
        · simp only [if_pos hm]
          have hscan' : ∀ fr ∈ ({ frame with next_next_fn := k' } :: rest),
              FrameScanned g seen fr := by
            intro fr hfr
            rcases List.mem_cons.mp hfr with rfl | hfr'
            · exact frameScanned_step g seen seen frame.fn frame.next_next_fn next_fn k'
                (hscan frame (by simp)) hg (fun x hx => hx) hm
            · exact hscan fr (by simp [hfr'])
          have hsrc' : ∀ x ∈ seen,
              x ∈ popped ∨ ∃ fr ∈ ({ frame with next_next_fn := k' } :: rest), fr.fn = x := by
            intro x hx
            rcases hsrc x hx with h | ⟨fr, hfr, hfx⟩
            · exact Or.inl h
            · rcases List.mem_cons.mp hfr with rfl | hfr'
              · exact Or.inr ⟨{ fr with next_next_fn := k' }, by simp, hfx⟩
              · exact Or.inr ⟨fr, by simp [hfr'], hfx⟩
          have hranked' : StackRanked rank ({ frame with next_next_fn := k' } :: rest) :=
            List.pairwise_cons.mpr ⟨fun b hb => hpair.1 b hb, hpair.2⟩
          obtain ⟨c1, c2, c3, c4⟩ := ih _ _ popped hscan' hsrc' hranked'
          refine ⟨c1, c2, c3, ?_⟩
          intro fr hfr
          rcases List.mem_cons.mp hfr with rfl | hfr'
          · exact c4 { fr with next_next_fn := k' } (by simp)
          · exact c4 fr (by simp [hfr'])
        · simp only [if_neg hm]
          have hsub : ∀ x ∈ seen, x ∈ next_fn :: seen := fun x hx => by simp [hx]
          have hscan' : ∀ fr ∈ (⟨next_fn, 0⟩ :: { frame with next_next_fn := k' } :: rest :
              List Frame), FrameScanned g (next_fn :: seen) fr := by
            intro fr hfr
            rcases List.mem_cons.mp hfr with rfl | hfr'
            · intro e he f hf
              simp at he
            · rcases List.mem_cons.mp hfr' with rfl | hfr''
              · exact frameScanned_step g seen (next_fn :: seen) frame.fn
                  frame.next_next_fn next_fn k' (hscan frame (by simp)) hg hsub (by simp)
              · exact frameScanned_mono g seen _ fr hsub (hscan fr (by simp [hfr'']))
          have hsrc' : ∀ x ∈ next_fn :: seen, x ∈ popped ∨
              ∃ fr ∈ (⟨next_fn, 0⟩ :: { frame with next_next_fn := k' } :: rest :
                List Frame), fr.fn = x := by
            intro x hx
            rcases List.mem_cons.mp hx with rfl | hx'
            · exact Or.inr ⟨⟨x, 0⟩, by simp, rfl⟩
            · rcases hsrc x hx' with h | ⟨fr, hfr, hfx⟩
              · exact Or.inl h
              · rcases List.mem_cons.mp hfr with rfl | hfr'
                · exact Or.inr ⟨{ fr with next_next_fn := k' }, by simp, hfx⟩
                · exact Or.inr ⟨fr, by simp [hfr'], hfx⟩
          have hlt : rank next_fn < rank frame.fn := by
            obtain ⟨e, he, hfe⟩ := hd
            exact hrank frame.fn e next_fn he hfe
          have hranked' : StackRanked rank
              (⟨next_fn, 0⟩ :: { frame with next_next_fn := k' } :: rest) := by
            refine List.pairwise_cons.mpr ⟨?_, ?_⟩
            · intro b hb
              rcases List.mem_cons.mp hb with rfl | hb'
              · exact hlt
              · exact lt_trans hlt (hpair.1 b hb')
            · exact List.pairwise_cons.mpr ⟨fun b hb => hpair.1 b hb, hpair.2⟩
          obtain ⟨c1, c2, c3, c4⟩ := ih _ _ popped hscan' hsrc' hranked'
          refine ⟨c1, fun x hx => c2 x (hsub x hx), c3, ?_⟩
          intro fr hfr
          rcases List.mem_cons.mp hfr with rfl | hfr'
          · exact c4 { fr with next_next_fn := k' } (by simp)
          · exact c4 fr (by simp [hfr'])
      | none =>
        have hall := frameScanned_none_all g seen frame.fn frame.next_next_fn
          (by
            have := hscan frame (by simp)
            exact this)
          hg
        have hpair := (List.pairwise_cons.mp hranked)
        have hsucc_popped : ∀ e ∈ g.next_edges frame.fn, ∀ f, e.function = some f →
            f ∈ popped := by
          intro e he f hf
          rcases hsrc f (hall e he f hf) with h | ⟨fr, hfr, hfx⟩
          · exact h
          · exfalso
            have hltf : rank f < rank frame.fn := hrank frame.fn e f he hf
            rcases List.mem_cons.mp hfr with rfl | hfr'
            · rw [hfx] at hltf
              exact lt_irrefl _ hltf
            · have := hpair.1 fr hfr'
              rw [hfx] at this
              omega
        have hscan' : ∀ fr ∈ rest, FrameScanned g seen fr :=
          fun fr hfr => hscan fr (by simp [hfr])
        have hsrc' : ∀ x ∈ seen, x ∈ frame.fn :: popped ∨ ∃ fr ∈ rest, fr.fn = x := by
          intro x hx
          rcases hsrc x hx with h | ⟨fr, hfr, hfx⟩
          · exact Or.inl (by simp [h])
          · rcases List.mem_cons.mp hfr with rfl | hfr'
            · exact Or.inl (by simp [hfx.symm])
            · exact Or.inr ⟨fr, hfr', hfx⟩
        obtain ⟨c1, c2, c3, c4⟩ := ih rest seen (frame.fn :: popped) hscan' hsrc' hpair.2
        simp only [dfs2, hg]
        refine ⟨⟨hsucc_popped, c1⟩, c2, ?_, ?_⟩
        · intro x hx
          rcases c3 x hx with h | h | h
          · rcases List.mem_cons.mp h with rfl | h'
            · exact Or.inr (Or.inl (by simp))
            · exact Or.inl h'
          · exact Or.inr (Or.inl (by simp [h]))
          · exact Or.inr (Or.inr h)
        · intro fr hfr
          rcases List.mem_cons.mp hfr with rfl | hfr'
          · exact Or.inl (by simp)
          · rcases c4 fr hfr' with h | h
            · exact Or.inl (by simp [h])
            · exact Or.inr h

theorem dfs2_seen_wf (g : Graph) (hclosed : g.Closed) :
    ∀ (fuel : Nat) (stack : List Frame) (seen : List Nat),
      seen.Nodup → (∀ s ∈ seen, s < g.numNodes) →
      ((dfs2 g fuel stack seen).2.1).Nodup ∧
      (∀ s ∈ (dfs2 g fuel stack seen).2.1, s < g.numNodes) := by
  intro fuel
  induction fuel with
  | zero =>
    intro stack seen hnd hb
    exact ⟨by simpa [dfs2] using hnd, by simpa [dfs2] using hb⟩
  | succ fuel ih =>
    intro stack seen hnd hb
    cases stack with
    | nil => exact ⟨by simpa [dfs2] using hnd, by simpa [dfs2] using hb⟩
    | cons frame rest =>
      cases hg : get_next_fn g frame.fn frame.next_next_fn with
      | some pk =>
        rcases pk with ⟨next_fn, k'⟩
        obtain ⟨_, _, _, hd⟩ := get_next_fn_some g frame.fn frame.next_next_fn
          next_fn k' hg
        simp only [dfs2, hg]
        by_cases hm : next_fn ∈ seen
        · simp only [if_pos hm]
          exact ih _ _ hnd hb
        · simp only [if_neg hm]
          refine ih _ _ (List.nodup_cons.mpr ⟨hm, hnd⟩) ?_
          intro s hs
          rcases List.mem_cons.mp hs with rfl | hs'
          · obtain ⟨e, he, hfe⟩ := hd
            exact hclosed frame.fn e s he hfe
          · exact hb s hs'
      | none =>
        simp only [dfs2, hg]
        exact ih rest seen hnd hb

theorem popsOK_append (g : Graph) :
    ∀ (t1 t2 p : List Nat), PopsOK g t1 p → PopsOK g t2 (t1.reverse ++ p) →
      PopsOK g (t1 ++ t2) p := by
  intro t1
  induction t1 with
  | nil =>
    intro t2 p _ h2
    simpa using h2
  | cons n rest ih =>
    intro t2 p h1 h2
    refine ⟨h1.1, ih t2 (n :: p) h1.2 ?_⟩
    have : (n :: rest).reverse ++ p = rest.reverse ++ (n :: p) := by simp
    rw [this] at h2
    exact h2

theorem popsOK_closed (g : Graph) :
    ∀ (t p : List Nat), PopsOK g t p →
      ∀ n ∈ t, ∀ e ∈ g.next_edges n, ∀ f, e.function = some f → f ∈ p ∨ f ∈ t := by
  intro t
  induction t with
  | nil =>
    intro p _ n hn
    simp at hn
  | cons m rest ih =>
    intro p h n hn e he f hf
    rcases List.mem_cons.mp hn with rfl | hn'
    · exact Or.inl (h.1 e he f hf)
    · rcases ih (m :: p) h.2 n hn' e he f hf with hp | ht
      · rcases List.mem_cons.mp hp with rfl | hp'
        · exact Or.inr (by simp)
        · exact Or.inl hp'
      · exact Or.inr (by simp [ht])

theorem initPops_fuel_ok (g : Graph) (f : Nat)
    (hf : f < g.numNodes) (seen : List Nat) :
    stackMeasure g [⟨f, 0⟩] seen ≤ dfsFuel g := by
  have hdeg : (g.next_edges f).length ≤ maxDeg g := deg_le_maxDeg g f hf
  have hbud : g.numNodes - seen.length ≤ g.numNodes := Nat.sub_le _ _
  simp only [stackMeasure, dfsFuel, List.map_cons, List.map_nil, List.sum_cons,
    List.sum_nil, frameSlack]
  have h1 : (g.numNodes - seen.length) * (maxDeg g + 2) ≤ g.numNodes * (maxDeg g + 2) :=
    Nat.mul_le_mul_right _ hbud
  have h2 : (g.numNodes + 2) * (2 + maxDeg g) =
      g.numNodes * (maxDeg g + 2) + 2 * (maxDeg g + 2) := by ring
  omega

theorem initPops_invariants (g : Graph) (rank : Nat → Nat) (hrank : RankedGraph g rank)
    (hclosed : g.Closed) :
    ∀ (edges : List Edge) (seen popped : List Nat),
      seen.Nodup → (∀ s ∈ seen, s < g.numNodes) →
      (∀ x ∈ seen, x ∈ popped) →
      (∀ e ∈ edges, ∀ f, e.function = some f → f < g.numNodes) →
      PopsOK g (initPops g edges seen).1 popped ∧
      (∀ x ∈ (initPops g edges seen).2,
        x ∈ popped ∨ x ∈ (initPops g edges seen).1) ∧
      ((initPops g edges seen).2).Nodup ∧
      (∀ s ∈ (initPops g edges seen).2, s < g.numNodes) ∧
      (∀ e ∈ edges, ∀ f, e.function = some f →
        f ∈ popped ∨ f ∈ (initPops g edges seen).1) := by
  intro edges
  induction edges with
  | nil =>
    intro seen popped hnd hb hsp _
    exact ⟨trivial, fun x hx => Or.inl (hsp x hx), hnd, hb, by simp⟩
  | cons input rest ih =>
    intro seen popped hnd hb hsp hedges
    cases hfe : input.function with
    | none =>
      simp only [initPops, hfe]
      obtain ⟨c1, c2, c3, c4, c5⟩ := ih seen popped hnd hb hsp
        (fun e he => hedges e (by simp [he]))
      refine ⟨c1, c2, c3, c4, ?_⟩
      intro e he f hf
      rcases List.mem_cons.mp he with rfl | he'
      · rw [hfe] at hf
        exact absurd hf (by simp)
      · exact c5 e he' f hf
    | some f =>
      simp only [initPops, hfe]
      have hflt : f < g.numNodes := hedges input (by simp) f hfe
      by_cases hm : f ∈ seen
      · simp only [if_pos hm]
        obtain ⟨c1, c2, c3, c4, c5⟩ := ih seen popped hnd hb hsp
          (fun e he => hedges e (by simp [he]))
        refine ⟨c1, c2, c3, c4, ?_⟩
        intro e he f' hf'
        rcases List.mem_cons.mp he with rfl | he'
        · rw [hfe] at hf'
          injection hf' with hh
          subst hh
          exact Or.inl (hsp f hm)
        · exact c5 e he' f' hf'
      · simp only [if_neg hm]
        obtain ⟨d1, d2, d3, d4⟩ := dfs2_invariants g rank hrank (dfsFuel g)
          [⟨f, 0⟩] seen popped
          (by
            intro fr hfr
            rcases List.mem_singleton.mp hfr with rfl
            intro e he
            simp at he)
          (fun x hx => Or.inl (hsp x hx))
          (List.pairwise_singleton _ _)
        have hempty : (dfs2 g (dfsFuel g) [⟨f, 0⟩] seen).2.2 = [] :=
          dfs2_stack_empty g hclosed (dfsFuel g) [⟨f, 0⟩] seen hnd hb
            (by
              intro fr hfr
              rcases List.mem_singleton.mp hfr with rfl
              exact hflt)
            (by
              intro fr hfr
              rcases List.mem_singleton.mp hfr with rfl
              simp)
            (initPops_fuel_ok g f hflt seen)
        obtain ⟨w1, w2⟩ := dfs2_seen_wf g hclosed (dfsFuel g) [⟨f, 0⟩] seen hnd hb
        have hfpop : f ∈ (dfs2 g (dfsFuel g) [⟨f, 0⟩] seen).1 := by
          rcases d4 ⟨f, 0⟩ (by simp) with h | ⟨fr', hfr', _⟩
          · exact h
          · rw [hempty] at hfr'
            simp at hfr'
        have hseen1 : ∀ x ∈ (dfs2 g (dfsFuel g) [⟨f, 0⟩] seen).2.1,
            x ∈ ((dfs2 g (dfsFuel g) [⟨f, 0⟩] seen).1).reverse ++ popped := by
          intro x hx
          rcases d3 x hx with h | h | ⟨fr, hfr, _⟩
          · simp [h]
          · simp [h]
          · rw [hempty] at hfr
            simp at hfr
        obtain ⟨c1, c2, c3, c4, c5⟩ := ih (dfs2 g (dfsFuel g) [⟨f, 0⟩] seen).2.1
          (((dfs2 g (dfsFuel g) [⟨f, 0⟩] seen).1).reverse ++ popped)
          w1 w2 hseen1 (fun e he => hedges e (by simp [he]))
        refine ⟨popsOK_append g _ _ popped d1 c1, ?_, c3, c4, ?_⟩
        · intro x hx
          rcases c2 x hx with h | h
          · rcases List.mem_append.mp h with h' | h'
            · exact Or.inr (by simp [List.mem_reverse.mp h'])
            · exact Or.inl h'
          · exact Or.inr (by simp [h])
        · intro e he f' hf'
          rcases List.mem_cons.mp he with rfl | he'
          · rw [hfe] at hf'
            injection hf' with hh
            subst hh
            exact Or.inr (by simp [hfpop])
          · rcases c5 e he' f' hf' with h | h
            · rcases List.mem_append.mp h with h' | h'
              · exact Or.inr (by simp [List.mem_reverse.mp h'])
              · exact Or.inl h'
            · exact Or.inr (by simp [h])

theorem any_eq_of_forall_eq {α : Type} :
    ∀ (l : List α) (p q : α → Bool), (∀ a ∈ l, p a = q a) → l.any p = l.any q := by
  intro l
  induction l with
  | nil => intro p q _; rfl
  | cons a rest ih =>
    intro p q h
    simp only [List.any_cons]
    rw [h a (by simp), ih p q (fun b hb => h b (by simp [hb]))]

theorem neededSpecF_stable (g : Graph) (caps : Nat → Bool) (rank : Nat → Nat)
    (hrank : RankedGraph g rank) :
    ∀ (r n : Nat), rank n ≤ r →
      ∀ fuel1 fuel2, rank n < fuel1 → rank n < fuel2 →
        neededSpecF g caps fuel1 n = neededSpecF g caps fuel2 n := by
  intro r
  induction r with
  | zero =>
    intro n hr fuel1 fuel2 h1 h2
    cases fuel1 with
    | zero => omega
    | succ m1 =>
      cases fuel2 with
      | zero => omega
      | succ m2 =>
        simp only [neededSpecF]
        apply any_eq_of_forall_eq
        intro e he
        cases hf : e.function with
        | none => rfl
        | some s => exact absurd (hrank n e s he hf) (by omega)
  | succ r ihr =>
    intro n hr fuel1 fuel2 h1 h2
    cases fuel1 with
    | zero => omega
    | succ m1 =>
      cases fuel2 with
      | zero => omega
      | succ m2 =>
        simp only [neededSpecF]
        apply any_eq_of_forall_eq
        intro e he
        cases hf : e.function with
        | none => rfl
        | some s =>
          have hrs : rank s < rank n := hrank n e s he hf
          dsimp only
          rw [ihr s (by omega) m1 m2 (by omega) (by omega)]

theorem applyPops_values (g : Graph) (caps : Nat → Bool) (rank : Nat → Nat)
    (hrank : RankedGraph g rank) :
    ∀ (t p : List Nat) (m : List (Nat × ExecInfo)),
      PopsOK g t p →
      (∀ k, capsOf m k = caps k) →
      (∀ x ∈ p, (lookupA x m).isSome = true ∧
        (getEI m x).needed = neededSpecF g caps (rank x + 1) x) →
      ∀ x, x ∈ p ∨ x ∈ t →
        (lookupA x (applyPops g t m)).isSome = true ∧
        (getEI (applyPops g t m) x).needed = neededSpecF g caps (rank x + 1) x := by
  intro t
  induction t with
  | nil =>
    intro p m _ _ hval x hx
    rcases hx with h | h
    · exact hval x h
    · simp at h
  | cons n rest ih =>
    intro p m hok hcaps hval x hx
    simp only [applyPops]
    have hneed : neededOf g m n = neededSpecF g caps (rank n + 1) n := by
      simp only [neededOf, neededSpecF]
      apply any_eq_of_forall_eq
      intro e he
      cases hf : e.function with
      | none => rfl
      | some s =>
        have hs := hok.1 e he s hf
        obtain ⟨hsome, hval_s⟩ := hval s hs
        cases hls : lookupA s m with
        | none =>
          rw [hls] at hsome
          simp at hsome
        | some info =>
          have hrs : rank s < rank n := hrank n e s he hf
          have hstab : neededSpecF g caps (rank s + 1) s = neededSpecF g caps (rank n) s :=
            neededSpecF_stable g caps rank hrank (rank s) s (le_refl _)
              (rank s + 1) (rank n) (by omega) (by omega)
          have hinfo_needed : info.needed = neededSpecF g caps (rank s + 1) s := by
            have hg : getEI m s = info := by simp [getEI, hls]
            rw [← hg]
            exact hval_s
          have hinfo_caps : (!info.captures.isEmpty) = caps s := by
            have hcs := hcaps s
            simp only [capsOf, getEI, hls, Option.getD_some] at hcs
            exact hcs
          simp [hls, ExecInfo.should_execute, hinfo_needed, hinfo_caps, hstab]
    have hval1 : ∀ y ∈ n :: p,
        (lookupA y (setNeeded m n (neededOf g m n))).isSome = true ∧
        (getEI (setNeeded m n (neededOf g m n)) y).needed =
          neededSpecF g caps (rank y + 1) y := by
      intro y hy
      by_cases hyn : y = n
      · subst hyn
        refine ⟨lookupA_setNeeded_self_isSome m y _, ?_⟩
        rw [getEI_setNeeded_self]
        simpa using hneed
      · have hy' : y ∈ p := by
          rcases List.mem_cons.mp hy with h | h
          · exact absurd h hyn
          · exact h
        obtain ⟨hs, hv⟩ := hval y hy'
        refine ⟨lookupA_setNeeded_isSome m y n _ hs, ?_⟩
        have hg : getEI (setNeeded m n (neededOf g m n)) y = getEI m y := by
          simp [getEI, lookupA_setNeeded_ne m y n _ hyn]
        rw [hg]
        exact hv
    have hcaps1 : ∀ k, capsOf (setNeeded m n (neededOf g m n)) k = caps k := by
      intro k
      rw [capsOf_setNeeded]
      exact hcaps k
    have hres := ih (n :: p) _ hok.2 hcaps1 hval1
    rcases hx with h | h
    · exact hres x (Or.inl (by simp [h]))
    · rcases List.mem_cons.mp h with rfl | h'
      · exact hres x (Or.inl (by simp))
      · exact hres x (Or.inr h')

theorem getEI_addCapture_needed (m : List (Nat × ExecInfo)) (k x : Nat) (c : Capture) :
    (getEI (addCapture m k c) x).needed = (getEI m x).needed := by
  by_cases h : x = k
  · subst h
    simp [getEI, addCapture, lookupA_setA_self]
  · simp [getEI, addCapture, lookupA_setA_ne _ _ _ _ h]

theorem getEI_initCaptures_needed :
    ∀ (outs : List Edge) (idx : Nat) (m : List (Nat × ExecInfo)) (x : Nat),
      (getEI (initCaptures outs idx m).1 x).needed = (getEI m x).needed := by
  intro outs
  induction outs with
  | nil => intro idx m x; rfl
  | cons e rest ih =>
    intro idx m x
    cases hf : e.function with
    | none =>
      simp only [initCaptures, hf]
      exact ih _ _ _
    | some f =>
      simp only [initCaptures, hf]
      rw [ih, getEI_addCapture_needed]

theorem dfs2_pops_src (g : Graph) :
    ∀ (fuel : Nat) (stack : List Frame) (seen : List Nat),
      ∀ p ∈ (dfs2 g fuel stack seen).1,
        (∃ fr ∈ stack, fr.fn = p) ∨
        ∃ m e, e ∈ g.next_edges m ∧ e.function = some p := by
  intro fuel
  induction fuel with
  | zero =>
    intro stack seen p hp
    simp [dfs2] at hp
  | succ fuel ih =>
    intro stack seen p hp
    cases stack with
    | nil => simp [dfs2] at hp
    | cons frame rest =>
      cases hg : get_next_fn g frame.fn frame.next_next_fn with
      | some pk =>
        rcases pk with ⟨next_fn, k'⟩
        simp only [dfs2, hg] at hp
        by_cases hm : next_fn ∈ seen
        · rw [if_pos hm] at hp
          rcases ih _ _ p hp with ⟨fr, hfr, hfn⟩ | h
          · rcases List.mem_cons.mp hfr with rfl | hfr'
            · exact Or.inl ⟨frame, by simp, hfn⟩
            · exact Or.inl ⟨fr, by simp [hfr'], hfn⟩
          · exact Or.inr h
        · rw [if_neg hm] at hp
          rcases ih _ _ p hp with ⟨fr, hfr, hfn⟩ | h
          · rcases List.mem_cons.mp hfr with rfl | hfr'
            · obtain ⟨_, _, _, e, he, hfe⟩ :=
                get_next_fn_some g frame.fn frame.next_next_fn next_fn k' hg
              have hpf : next_fn = p := hfn
              exact Or.inr ⟨frame.fn, e, he, by rw [← hpf]; exact hfe⟩
            · rcases List.mem_cons.mp hfr' with rfl | hfr''
              · exact Or.inl ⟨frame, by simp, hfn⟩
              · exact Or.inl ⟨fr, by simp [hfr''], hfn⟩
          · exact Or.inr h
      | none =>
        simp only [dfs2, hg] at hp
        rcases List.mem_cons.mp hp with rfl | hp'
        · exact Or.inl ⟨frame, by simp, rfl⟩
        · rcases ih rest seen p hp' with ⟨fr, hfr, hfn⟩ | h
          · exact Or.inl ⟨fr, by simp [hfr], hfn⟩
          · exact Or.inr h

theorem initPops_src (g : Graph) :
    ∀ (edges : List Edge) (seen : List Nat),
      (∀ e ∈ edges, ∃ m, e ∈ g.next_edges m) →
      ∀ p ∈ (initPops g edges seen).1,
        ∃ m e, e ∈ g.next_edges m ∧ e.function = some p := by
  intro edges
  induction edges with
  | nil =>
    intro seen _ p hp
    simp [initPops] at hp
  | cons input rest ih =>
    intro seen hsrc p hp
    cases hf : input.function with
    | none =>
      simp only [initPops, hf] at hp
      exact ih seen (fun e he => hsrc e (by simp [he])) p hp
    | some f =>
      simp only [initPops, hf] at hp
      by_cases hm : f ∈ seen
      · rw [if_pos hm] at hp
        exact ih seen (fun e he => hsrc e (by simp [he])) p hp
      · rw [if_neg hm] at hp
        rcases List.mem_append.mp hp with h1 | h2
        · rcases dfs2_pops_src g (dfsFuel g) [⟨f, 0⟩] seen p h1 with ⟨fr, hfr, hfn⟩ | h
          · rcases List.mem_singleton.mp hfr with rfl
            obtain ⟨m, hme⟩ := hsrc input (by simp)
            have hpf : f = p := hfn
            exact ⟨m, input, hme, by rw [← hpf]; exact hf⟩
          · exact h
        · exact ih _ (fun e he => hsrc e (by simp [he])) p h2

theorem reaches_mem_pops (g : Graph) (rank : Nat → Nat) (hrank : RankedGraph g rank)
    (hclosed : g.Closed) (root : Nat) :
    ∀ n, Reaches g root n →
      n = root ∨ n ∈ (initPops g (g.next_edges root) []).1 := by
  intro n hn
  induction hn with
  | refl => exact Or.inl rfl
  | step hm e he hf ih =>
    obtain ⟨c1, _, _, _, c5⟩ := initPops_invariants g rank hrank hclosed
      (g.next_edges root) [] [] (by simp) (by simp) (by simp)
      (fun e' he' f' hf' => hclosed root e' f' he' hf')
    rcases ih with rfl | hmem
    · rcases c5 e he _ hf with h | h
      · simp at h
      · exact Or.inr h
    · rcases popsOK_closed g _ [] c1 _ hmem e he _ hf with h | h
      · simp at h
      · exact Or.inr h

theorem root_not_mem_initPops (g : Graph) (root : Nat) (hroot : g.NoInEdges root) :
    root ∉ (initPops g (g.next_edges root) []).1 := by
  intro hmem
  obtain ⟨m, e, he, hf⟩ :=
    initPops_src g (g.next_edges root) [] (fun e he => ⟨root, he⟩) root hmem
  exact hroot m e he hf

theorem init_to_execute_needed (gt : GraphTask) (g : Graph) (root : Nat)
    (outputs : List Edge) (rank : Nat → Nat)
    (hrank : RankedGraph g rank) (hclosed : g.Closed) (hroot : g.NoInEdges root) :
    (∀ n, Reaches g root n → n ≠ root →
      (lookupA n (gt.init_to_execute g root outputs).exec_info).isSome = true ∧
      (getEI (gt.init_to_execute g root outputs).exec_info n).needed =
        neededSpecF g (capsOf (gt.init_to_execute g root outputs).exec_info)
          (rank n + 1) n) ∧
    (getEI (gt.init_to_execute g root outputs).exec_info root).needed = true := by
  have hE : (gt.init_to_execute g root outputs).exec_info =
      applyPops g (initPops g (g.next_edges root) []).1
        (initCaptures outputs 0 (setNeeded gt.exec_info root true)).1 := by
    simp only [GraphTask.init_to_execute]
    rw [init_dfs_eq_applyPops]
  obtain ⟨c1, _, _, _, _⟩ := initPops_invariants g rank hrank hclosed
    (g.next_edges root) [] [] (by simp) (by simp) (by simp)
    (fun e he f hf => hclosed root e f he hf)
  have hvals := applyPops_values g
    (capsOf (initCaptures outputs 0 (setNeeded gt.exec_info root true)).1) rank hrank
    (initPops g (g.next_edges root) []).1 []
    (initCaptures outputs 0 (setNeeded gt.exec_info root true)).1
    c1 (fun _ => rfl) (by intro x hx; simp at hx)
  have hcapsfun : capsOf (gt.init_to_execute g root outputs).exec_info =
      capsOf (initCaptures outputs 0 (setNeeded gt.exec_info root true)).1 := by
    funext k
    rw [hE, capsOf_applyPops]
  constructor
  · intro n hn hne
    have hnp : n ∈ (initPops g (g.next_edges root) []).1 := by
      rcases reaches_mem_pops g rank hrank hclosed root n hn with h | h
      · exact absurd h hne
      · exact h
    obtain ⟨h1, h2⟩ := hvals n (Or.inr hnp)
    have hcaps2 : capsOf (applyPops g (initPops g (g.next_edges root) []).1
        (initCaptures outputs 0 (setNeeded gt.exec_info root true)).1) =
        capsOf (initCaptures outputs 0 (setNeeded gt.exec_info root true)).1 :=
      funext fun k => capsOf_applyPops g _ _ k
    rw [hE, hcaps2]
    exact ⟨h1, h2⟩
  · rw [hE]
    have hlk : lookupA root (applyPops g (initPops g (g.next_edges root) []).1
        (initCaptures outputs 0 (setNeeded gt.exec_info root true)).1) =
        lookupA root (initCaptures outputs 0 (setNeeded gt.exec_info root true)).1 :=
      lookupA_applyPops_not_mem g _ _ root (root_not_mem_initPops g root hroot)
    have hg1 : (getEI (applyPops g (initPops g (g.next_edges root) []).1
        (initCaptures outputs 0 (setNeeded gt.exec_info root true)).1) root).needed =
        (getEI (initCaptures outputs 0 (setNeeded gt.exec_info root true)).1 root).needed := by
      simp [getEI, hlk]
    rw [hg1, getEI_initCaptures_needed, getEI_setNeeded_self]

theorem pruneGraph_closed : pruneGraph.Closed := by
  intro m e f he hf
  rcases m with _ | _ | _ | m <;> simp [pruneGraph] at he <;>
    rcases he with rfl | rfl <;> simp_all [pruneGraph] <;> omega

theorem pruneGraph_noInEdges : pruneGraph.NoInEdges 0 := by
  intro m e he hf
  rcases m with _ | _ | _ | m <;> simp [pruneGraph] at he <;>
    rcases he with rfl | rfl <;> simp_all

theorem pruneGraph_ranked : RankedGraph pruneGraph (fun n => 5 - n) := by
  intro m e f he hf
  rcases m with _ | _ | _ | m <;> simp [pruneGraph] at he <;>
    rcases he with rfl | rfl <;> simp_all [pruneGraph] <;> omega

/-- C1: with requested outputs, `init_to_execute` prunes the backward
graph.  In general — for any closed graph made acyclic by a rank
function, rooted at a node with no in-edges — every node reachable from
the root (other than the root itself) ends with an exec-info entry
whose `needed` flag equals the source comment's recursive condition
`is_needed = any(successor should execute)`, and the root's entry stays
marked needed.  `evaluate_function` returns without invoking any node
whose `needed` flag is false, after copying its captured inputs into
`captured_vars_`.  In the concrete pruned run the off-path nodes C (3)
and D (4) are never invoked while the requested capture is written at
output index 0. -/
theorem exec_info_pruning :
    (∀ (gt : GraphTask) (g : Graph) (root : Nat) (outputs : List Edge) (rank : Nat → Nat),
      RankedGraph g rank → g.Closed → g.NoInEdges root →
      (∀ n, Reaches g root n → n ≠ root →
        (lookupA n (gt.init_to_execute g root outputs).exec_info).isSome = true ∧
        (getEI (gt.init_to_execute g root outputs).exec_info n).needed =
          neededSpecF g (capsOf (gt.init_to_execute g root outputs).exec_info)
            (rank n + 1) n) ∧
      (getEI (gt.init_to_execute g root outputs).exec_info root).needed = true) ∧
    (∀ (g : Graph) (gt : GraphTask) (f : Nat) (inputs : InputBuffer) (fi : ExecInfo),
      gt.exec_info.isEmpty = false → lookupA f gt.exec_info = some fi →
      fi.needed = false →
      evaluate_function g gt f inputs =
        { gt := { gt with
                    captured_vars := captureInputs inputs fi.captures gt.captured_vars },
          pushes := [], invoked := false, err := none }) ∧
    (∀ n ∈ reachableFrom pruneGraph 0,
      (getEI pruneExecInfo n).needed = neededOf pruneGraph pruneExecInfo n) ∧
    3 ∉ pruneRun.invoked ∧ 4 ∉ pruneRun.invoked ∧
    pruneRun.captured = [mkT 15] ∧ pruneRun.result = .ok [mkT 15] := by
  refine ⟨?_, evaluate_function_skips, by decide, by decide, by decide, rfl, rfl⟩
  intro gt g root outputs rank hrank hclosed hroot
  exact init_to_execute_needed gt g root outputs rank hrank hclosed hroot

/-- Witness for C1: on the pruning fixture, node B (2) — reachable from
the root — carries the spec's recursive needed value, and the unneeded
capturing node 2 of `gtSkipFix` is skipped with its input copied to
capture slot 0. -/
theorem exec_info_pruning_witness :
    ((lookupA 2 pruneExecInfo).isSome = true ∧
     (getEI pruneExecInfo 2).needed =
       neededSpecF pruneGraph (capsOf pruneExecInfo) 4 2) ∧
    evaluate_function pruneGraph gtSkipFix 2 [mkT 7] =
      { gt := { gtSkipFix with captured_vars := [mkT 7] },
        pushes := [], invoked := false, err := none } := by
  constructor
  · have h := (exec_info_pruning.1 (mkGraphTask true false 0) pruneGraph 0 pruneOutputs
      (fun n => 5 - n) pruneGraph_ranked pruneGraph_closed pruneGraph_noInEdges).1 2
      (Reaches.step (Reaches.step Reaches.refl ⟨some 1, 0⟩ (by simp [pruneGraph]) rfl)
        ⟨some 2, 0⟩ (by simp [pruneGraph]) rfl)
      (by decide)
    exact h
  · exact exec_info_pruning.2.1 pruneGraph gtSkipFix 2 [mkT 7]
      { needed := false, captures := [⟨0, 0⟩] } rfl rfl rfl

end Autograd
